import Mathlib

/-!
Verification of `pssm_updater.py` (CuriousMike56/pssm_updater).

The script is a batch rewriter for OGRE-style `.material` scripts.  We give a
shallow embedding over `List Char`:

* pure text functions (`parse_material_file`, `is_eligible_material`,
  `transform_material`) are translated into executable Lean functions that
  mirror the Python regex semantics character by character;
* the filesystem-facing part (`process_file`, `run`) is modelled by pure
  state-passing functions over an abstract directory listing.

Modelling conventions:

* A Python `str` is a `List Char`.  The source operates on material scripts,
  so the ASCII fragments of Python's `\s` (space, tab, newline, carriage
  return, vertical tab, form feed) and `\w` (alphanumeric or underscore) are
  used; this is faithful for the ASCII text the tool processes.
* `re.findall(r'\bkw\s*\x7b', t)` returns non-overlapping matches scanned left
  to right.  Two match positions of this pattern can never overlap (a later
  match would have to start inside the keyword, where the preceding character
  is a word character and the `\b` fails, or inside the whitespace-brace tail,
  which contains no word character), so the count of matches equals the count
  of positions at which the pattern matches; `cntAux` counts those positions.
* `re.sub` scans the original string left to right and resumes scanning at
  the end of each match; the substitution functions below do exactly that.
* Python `str.find`/`str.rfind` return `-1` on failure and slices accept
  negative indices; `pyFind`, `pyRfind` and `pySlice` reproduce this.
-/

/-- Coerce a Lean string literal to the `List Char` representation. -/
def sL (s : String) : List Char := s.toList

/-- ASCII fragment of Python's `\s` (also the set used by `str.strip`). -/
def isSpace (c : Char) : Bool :=
  c = ' ' || c = '\t' || c = '\n' || c = '\r' || c = '\x0b' || c = '\x0c'

/-- ASCII fragment of Python's `\w`: alphanumeric or underscore. -/
def isWordChar (c : Char) : Bool :=
  c.isAlphanum || c = '_'

/-- Word boundary `\b` before the current position, given the previous
character (`none` at the start of the string); the character at the current
position is a word character in every pattern we use. -/
def boundaryB : Option Char → Bool
  | none => true
  | some c => !isWordChar c

/-- Python's substring test `needle in text`. -/
def hasSub (needle : List Char) : List Char → Bool
  | [] => needle.isEmpty
  | c :: rest => needle.isPrefixOf (c :: rest) || hasSub needle rest

/-- Does the pattern `\bkw\s*\x7b` match at the head of `s`, where `prev` is
the character preceding `s` in the full text? -/
def cntMatch (kw : List Char) (prev : Option Char) (s : List Char) : Bool :=
  boundaryB prev && kw.isPrefixOf s &&
    (match (s.drop kw.length).dropWhile isSpace with
     | '\x7b' :: _ => true
     | _ => false)

/-- Count the positions of `s` at which `\bkw\s*\x7b` matches (equal to
`len(re.findall(...))`; see the module comment on non-overlap). -/
def cntAux (kw : List Char) : Option Char → List Char → Nat
  | _, [] => 0
  | prev, c :: rest => (if cntMatch kw prev (c :: rest) then 1 else 0) + cntAux kw (some c) rest

/-- `len(re.findall(r'\bkw\s*\x7b', t))`. -/
def kwBraceCount (kw : List Char) (t : List Char) : Nat := cntAux kw none t

/-- `is_eligible_material` from the source: reject on any of three substrings,
then accept iff the `pass` opener count is 1 or 2 and the `texture_unit`
opener count is exactly 1. -/
def is_eligible_material (material_text : List Char) : Bool :=
  if hasSub (sL "vertex_program_ref") material_text
      || hasSub (sL "fragment_program_ref") material_text
      || hasSub (sL "tex_coord_set") material_text then
    false
  else
    let pass_count := kwBraceCount (sL "pass") material_text
    let texture_unit_count := kwBraceCount (sL "texture_unit") material_text
    (pass_count == 1 || pass_count == 2) && texture_unit_count == 1

/-- Length of a match of the split pattern `material\s+` at the head of `s`
(the literal keyword followed by a maximal nonempty whitespace run), if any.
The pattern has no word boundary, matching `re.split(r'material\s+', ...)`. -/
def matSplitLen (s : List Char) : Option Nat :=
  if (sL "material").isPrefixOf s then
    let w := ((s.drop 8).takeWhile isSpace).length
    if w = 0 then none else some (8 + w)
  else none

/-- `re.split(r'material\s+', content)`: scan left to right, cutting at each
match; `acc` holds the current piece reversed.  Structural recursion on a
fuel bound (any fuel at least the length of `s` gives the same answer; the
wrapper `splitMatAux` supplies `s.length`), so that the function reduces in
the kernel. -/
def splitMatF (fuel : Nat) (acc : List Char) (s : List Char) : List (List Char) :=
  match fuel, s with
  | _, [] => [acc.reverse]
  | 0, _ => []
  | fuel + 1, c :: rest =>
    match matSplitLen (c :: rest) with
    | some n => acc.reverse :: splitMatF fuel [] ((c :: rest).drop n)
    | none => splitMatF fuel (c :: acc) rest

/-- The split scan with sufficient fuel. -/
def splitMatAux (acc : List Char) (s : List Char) : List (List Char) :=
  splitMatF s.length acc s

/-- `parse_material_file` from the source: split on `material\s+`, drop the
text before the first match, and re-attach the normalized keyword plus one
space to every piece. -/
def parse_material_file (content : List Char) : List (List Char) :=
  ((splitMatAux [] content).drop 1).map (fun mat => sL "material " ++ mat)

/-- Python `str.strip()` (ASCII whitespace). -/
def pyStrip (l : List Char) : List Char :=
  ((l.dropWhile isSpace).reverse.dropWhile isSpace).reverse

/-- Index of the first element satisfying `p`. -/
def findFirstIdx (p : Char → Bool) : List Char → Option Nat
  | [] => none
  | c :: rest => if p c then some 0 else (findFirstIdx p rest).map (· + 1)

/-- Python `str.find(ch)`: lowest index, `-1` when absent. -/
def pyFind (ch : Char) (t : List Char) : Int :=
  match findFirstIdx (fun c => c = ch) t with
  | some i => (i : Int)
  | none => -1

/-- Python `str.rfind(ch)`: highest index, `-1` when absent. -/
def pyRfind (ch : Char) (t : List Char) : Int :=
  match findFirstIdx (fun c => c = ch) t.reverse with
  | some j => ((t.length - 1 - j : Nat) : Int)
  | none => -1

/-- Clamp a Python slice endpoint (negative indices wrap from the end). -/
def pyIdx (n : Nat) (i : Int) : Nat :=
  if i < 0 then (i + n).toNat else min i.toNat n

/-- Python slice `t[a:b]`. -/
def pySlice (t : List Char) (a b : Int) : List Char :=
  (t.take (pyIdx t.length b)).drop (pyIdx t.length a)

/-- Backtracking loop of `re.match(r'material\s+([^\n\x7b]+)([\s]*)', t)`:
`u` is the text after the 8-character keyword and `p` the number of
characters currently consumed by `\s+` (descending from the maximal
whitespace run, as the greedy `\s+` gives characters back one at a time).
Returns group 1, the maximal `[^\n\x7b]+` run at the chosen position. -/
def tryG1 (u : List Char) : Nat → Option (List Char)
  | 0 => none
  | p + 1 =>
    match (u.drop (p + 1)).head? with
    | some c =>
      if c ≠ '\n' && c ≠ '\x7b' then
        some ((u.drop (p + 1)).takeWhile (fun x => !(x = '\n' || x = '\x7b')))
      else tryG1 u p
    | none => tryG1 u p

/-- Group 1 of `re.match(r'material\s+([^\n\x7b]+)([\s]*)', t)`, or `none`
when the pattern does not match (the Python code would then raise on
`.group(1)`).  Group 2 is captured by the source but never used. -/
def nameG1 (t : List Char) : Option (List Char) :=
  if (sL "material").isPrefixOf t then
    let u := t.drop 8
    tryG1 u ((u.takeWhile isSpace).length)
  else none

/-- Does `\bkw\b(?=\s*\x7b)` match at the head of `s`?  (Used by `re.sub` for
the `technique` and `texture_unit` renames; the trailing `\b` is implied by
the lookahead but kept for fidelity to the pattern.) -/
def subMatch (kw : List Char) (prev : Option Char) (s : List Char) : Bool :=
  !kw.isEmpty && boundaryB prev && kw.isPrefixOf s &&
    (match (s.drop kw.length).head? with
     | some c => !isWordChar c
     | none => true) &&
    (match (s.drop kw.length).dropWhile isSpace with
     | '\x7b' :: _ => true
     | _ => false)

/-- `re.sub(r'\bkw\b(?=\s*\x7b)', rep, ·)`: scan left to right; on a match
emit `rep`, resume after the keyword (the lookahead is zero-width), with the
keyword's last character as the new preceding character.  Structural on a
fuel bound; any fuel at least the length of `s` gives the same answer. -/
def subKwF (kw rep : List Char) (fuel : Nat) (prev : Option Char) (s : List Char) : List Char :=
  match fuel, s with
  | _, [] => []
  | 0, _ => []
  | fuel + 1, c :: rest =>
    if subMatch kw prev (c :: rest) then
      rep ++ subKwF kw rep fuel (some (kw.getLastD ' ')) ((c :: rest).drop kw.length)
    else
      c :: subKwF kw rep fuel (some c) rest

/-- The keyword substitution scan with sufficient fuel and explicit
preceding character. -/
def subKwAux (kw rep : List Char) (prev : Option Char) (s : List Char) : List Char :=
  subKwF kw rep s.length prev s

/-- Top-level entry of the keyword substitution (start of string: no
preceding character). -/
def subKw (kw rep : List Char) (s : List Char) : List Char := subKwAux kw rep none s

/-- Python `s.replace(needle, rep, 1)`: replace the first occurrence only. -/
def pyReplaceFirst (needle rep : List Char) (s : List Char) : List Char :=
  match s with
  | [] => []
  | c :: rest =>
    if !needle.isEmpty && needle.isPrefixOf (c :: rest) then
      rep ++ (c :: rest).drop needle.length
    else c :: pyReplaceFirst needle rep rest

/-- Length of a match of `pass\s*\x7b[^\x7d]*\x7d` at the head of `s` (no word
boundary; `[^\x7d]*` runs to the first closing brace, `re.DOTALL` is implied
because `[^\x7d]` already matches newlines). -/
def passSpanLen (s : List Char) : Option Nat :=
  if (sL "pass").isPrefixOf s then
    match ((s.drop 4).drop ((s.drop 4).takeWhile isSpace).length).head? with
    | some '\x7b' =>
      (match findFirstIdx (fun c => c = '\x7d') ((s.drop 4).drop (((s.drop 4).takeWhile isSpace).length + 1)) with
       | some j => some (4 + ((s.drop 4).takeWhile isSpace).length + 1 + j + 1)
       | none => none)
    | _ => none
  else none

/-- `replace_pass` from the source: inside a matched pass span, rename the
first occurrence of `pass` only when the span mentions `texture_unit`. -/
def replace_pass (pass_block : List Char) : List Char :=
  if hasSub (sL "texture_unit") pass_block then
    pyReplaceFirst (sL "pass") (sL "pass BaseRender") pass_block
  else pass_block

/-- `re.sub(r'pass\s*\x7b[^\x7d]*\x7d', replace_pass, ·)`: scan left to right,
apply `replace_pass` to each matched span, resume after the span.  Structural
on a fuel bound; any fuel at least the length of `s` gives the same answer. -/
def subPassF (fuel : Nat) (s : List Char) : List Char :=
  match fuel, s with
  | _, [] => []
  | 0, _ => []
  | fuel + 1, c :: rest =>
    match passSpanLen (c :: rest) with
    | some n => replace_pass ((c :: rest).take n) ++ subPassF fuel ((c :: rest).drop n)
    | none => c :: subPassF fuel rest

/-- The pass-span substitution with sufficient fuel. -/
def subPass (s : List Char) : List Char :=
  subPassF s.length s

/-- `transform_material` from the source.  Returns `none` exactly when
`re.match(r'material\s+([^\n\x7b]+)([\s]*)', ·)` fails, in which case the
Python code raises `AttributeError` on `.group(1)`.  All other steps
(`find`, `rfind`, slicing, the three `re.sub` calls) cannot raise. -/
def transform_material (material_text : List Char) : Option (List Char) :=
  match nameG1 material_text with
  | none => none
  | some g1 =>
    let material_name := pyStrip g1
    let start_brace : Int := pyFind '\x7b' material_text
    let end_brace : Int := pyRfind '\x7d' material_text
    let pre_brace_ws := pySlice material_text (9 + material_name.length) start_brace
    let inner0 := pySlice material_text (start_brace + 1) end_brace
    let inner1 := subKw (sL "technique") (sL "technique BaseTechnique") inner0
    let inner2 := subPass inner1
    let inner3 := subKw (sL "texture_unit") (sL "texture_unit Diffuse_Map") inner2
    some (sL "material " ++ material_name ++ sL ": RoR/Managed_Mats/Base" ++ pre_brace_ws
          ++ '\x7b' :: (inner3 ++ ['\x7d']))

/-- Pure result of `process_file` on one file's content.  `newContent` is the
text written back (`none` when nothing was eligible and the file is left
untouched); `backupContent` is the byte content copied into the backup
directory (`shutil.copy2`), populated before the overwrite. -/
structure FileResult where
  materials : List (List Char)
  outBlocks : List (List Char)
  updatedCount : Nat
  newContent : Option (List Char)
  backupContent : Option (List Char)
deriving Repr, DecidableEq

/-- The per-block loop of `process_file`: transform eligible blocks, pass the
rest through.  `none` models the uncaught `AttributeError` when
`transform_material` fails on an eligible block, which aborts the run. -/
def processBlocksAux : List (List Char) → Option (List (List Char) × Nat)
  | [] => some ([], 0)
  | m :: rest =>
    if is_eligible_material m then
      match transform_material m with
      | none => none
      | some tm =>
        match processBlocksAux rest with
        | none => none
        | some (bs, k) => some (tm :: bs, k + 1)
    else
      match processBlocksAux rest with
      | none => none
      | some (bs, k) => some (m :: bs, k)

/-- The fixed first line of every rewritten file, plus the blank line that
separates it from the blocks. -/
def importHeader : List Char := sL "import * from \"managed_mats.material\"\n\n"

/-- `process_file` from the source as a pure function of the file content.
When at least one block was updated, the original bytes are copied to the
backup first and the file is rewritten as the header followed by all blocks
joined with a blank line; otherwise nothing is written. -/
def processFileModel (content : List Char) : Option FileResult :=
  match processBlocksAux (parse_material_file content) with
  | none => none
  | some (outs, k) =>
    some { materials := parse_material_file content
           outBlocks := outs
           updatedCount := k
           newContent := if 0 < k then some (importHeader ++ List.intercalate (sL "\n\n") outs) else none
           backupContent := if 0 < k then some content else none }

/-- Abstract state of the input directory before the run: whether the
directory exists, and the name/content pairs of its `*.material` files. -/
structure FSState where
  inputDirExists : Bool
  files : List (List Char × List Char)
deriving Repr, DecidableEq

/-- Observable outcome of a completed run: whether the backup subdirectory
(`old_materials`) was created, the final file contents, the backup copies
made (name and bytes), the messages printed, and the three counters. -/
structure RunOutcome where
  backupDirCreated : Bool
  files : List (List Char × List Char)
  backups : List (List Char × List Char)
  messages : List (List Char)
  processedFiles : Nat
  processedMaterials : Nat
  updatedMaterials : Nat
deriving Repr, DecidableEq

/-- The per-file loop of `run`: process each file in order, record the new
contents and backups, and accumulate the three counters; `none` propagates a
per-file abort (there is no per-file error recovery in the source). -/
def runFilesAux : List (List Char × List Char) →
    Option (List (List Char × List Char) × List (List Char × List Char) × Nat × Nat × Nat)
  | [] => some ([], [], 0, 0, 0)
  | (n, c) :: rest =>
    match processFileModel c with
    | none => none
    | some r =>
      match runFilesAux rest with
      | none => none
      | some (fs, bks, pf, pm, um) =>
        some ((n, r.newContent.getD c) :: fs,
              (match r.backupContent with
               | some b => (n, b) :: bks
               | none => bks),
              (if 0 < r.updatedCount then pf + 1 else pf),
              r.materials.length + pm,
              r.updatedCount + um)

/-- The whole program: `PSSMMaterialUpdater(input_folder)` followed by
`run()`.  The constructor runs `backup_folder.mkdir(exist_ok=True)`, which
raises `FileNotFoundError` when the input directory (the parent) is missing
(modelled by `none`) and otherwise creates the backup subdirectory before
anything else happens.  With no `*.material` files, `run` prints a message
and returns early. -/
def pssm_run (fs : FSState) : Option RunOutcome :=
  if fs.inputDirExists then
    if fs.files.isEmpty then
      some { backupDirCreated := true
             files := fs.files
             backups := []
             messages := [sL "No .material files found!"]
             processedFiles := 0
             processedMaterials := 0
             updatedMaterials := 0 }
    else
      match runFilesAux fs.files with
      | none => none
      | some (ofs, bks, pf, pm, um) =>
        some { backupDirCreated := true
               files := ofs
               backups := bks
               messages := []
               processedFiles := pf
               processedMaterials := pm
               updatedMaterials := um }
  else none

/-- Specification-side opener test at an absolute index `i` of `t`: a word
boundary before `i`, the keyword at `i`, then optional whitespace and an
opening brace (the reading of "the keyword immediately followed by a brace,
ignoring intervening whitespace"). -/
def openerAtIdx (kw t : List Char) (i : Nat) : Bool :=
  (match i with
   | 0 => true
   | j + 1 => !isWordChar (t.getD j ' ')) &&
  kw.isPrefixOf (t.drop i) &&
    (match ((t.drop i).drop kw.length).dropWhile isSpace with
     | '\x7b' :: _ => true
     | _ => false)

/-- Specification-side opener count: the number of indices of `t` at which
the opener pattern occurs. -/
def specOpenerCount (kw t : List Char) : Nat :=
  (List.range t.length).countP (fun i => openerAtIdx kw t i)

/-- Does the name-extraction pattern `material\s+([^\n\x7b]+)` have the easy
shape: the 8-character keyword, at least one whitespace character, and then a
first non-whitespace character other than an opening brace?  (This is the
condition under which a material block has a usable name; blocks produced by
`parse_material_file` from ordinary scripts have it.) -/
def nameOkB (t : List Char) : Bool :=
  (sL "material").isPrefixOf t &&
    decide (1 ≤ ((t.drop 8).takeWhile isSpace).length) &&
    (match (t.drop 8).dropWhile isSpace with
     | c :: _ => c ≠ '\x7b'
     | [] => false)

/-- A witness relation for "the output only inserts the given words": `InsOf
ws a b` holds when `b` is `a` with copies of words from `ws` inserted at some
positions — equivalently, deleting those inserted words from `b` recovers
`a` exactly. -/
inductive InsOf (ws : List (List Char)) : List Char → List Char → Prop
  | nil : InsOf ws [] []
  | keep (c : Char) {a b : List Char} : InsOf ws a b → InsOf ws (c :: a) (c :: b)
  | ins {w : List Char} {a b : List Char} : w ∈ ws → InsOf ws a b → InsOf ws a (w ++ b)

/-- The content of the C2 scenario: one material block, one pass opener, one
texture_unit opener, no disqualifying substrings. -/
def scenarioContent : List Char :=
  sL "material Simple/Mat\n\x7b\n\ttechnique\n\t\x7b\n\t\tpass\n\t\t\x7b\n\t\t\ttexture_unit\n\t\t\t\x7b\n\t\t\t\ttexture something.png\n\t\t\t\x7d\n\t\t\x7d\n\t\x7d\n\x7d"

/-- The transformed block the C2 scenario must produce. -/
def scenarioRewritten : List Char :=
  sL "material Simple/Mat: RoR/Managed_Mats/Base\n\x7b\n\ttechnique BaseTechnique\n\t\x7b\n\t\tpass BaseRender\n\t\t\x7b\n\t\t\ttexture_unit Diffuse_Map\n\t\t\t\x7b\n\t\t\t\ttexture something.png\n\t\t\t\x7d\n\t\t\x7d\n\t\x7d\n\x7d"

/-- A block that `is_eligible_material` accepts although the name pattern of
`transform_material` fails on it: after `material` and its whitespace the
next character is the opening brace, so `[^\n\x7b]+` cannot match and
`.group(1)` raises. -/
def noNameBlock : List Char := sL "material \x7bpass \x7btexture_unit \x7ba\x7d\x7d\x7d"

/-- An eligible block whose single `texture_unit` opener sits between the
declared name and the first opening brace.  The name pattern captures only
`A` (group 1 stops at the newline), so the keyword survives verbatim in the
rebuilt header and the transformed block is eligible again. -/
def preBraceTU : List Char := sL "material A\ntexture_unit \x7bpass \x7bx\x7d\x7d"

/-- The transform of `preBraceTU` (still accepted by the classifier). -/
def preBraceTUOut : List Char := sL "material A: RoR/Managed_Mats/Base\ntexture_unit \x7bpass \x7bx\x7d\x7d"

/-- A two-block file: an eligible block followed by an ineligible one (two
texture_unit openers). -/
def mixedContent : List Char :=
  sL "material Good\n\x7b\n pass\n \x7b\n  texture_unit\n  \x7b\n  \x7d\n \x7d\n\x7d\n\nmaterial Bad\n\x7b\n pass\n \x7b\n  texture_unit\n  \x7b\n  \x7d\n  texture_unit\n  \x7b\n  \x7d\n \x7d\n\x7d"

/-- The processing result of `mixedContent` (used to witness the frame and
writer properties on a file that has both kinds of blocks). -/
def mixedResult : FileResult :=
  (processFileModel mixedContent).getD { materials := [], outBlocks := [], updatedCount := 0, newContent := none, backupContent := none }

/-- One step of the decomposition of a string under the
`pass\s*\x7b[^\x7d]*\x7d` scan: either a literal character the scan stepped
over, or a whole matched span. -/
inductive PassChunk where
  | lit (c : Char)
  | span (sp : List Char)
deriving Repr, DecidableEq

/-- The text a chunk stands for. -/
def chunkText : PassChunk → List Char
  | PassChunk.lit c => [c]
  | PassChunk.span sp => sp

/-- Concatenated text of a chunk list. -/
def chunksText (l : List PassChunk) : List Char := (l.map chunkText).flatten

/-- Decompose a string into the literal characters and matched spans of the
`pass\s*\x7b[^\x7d]*\x7d` scan (fuelled like the scan itself). -/
def passDecompF (fuel : Nat) (s : List Char) : List PassChunk :=
  match fuel, s with
  | _, [] => []
  | 0, _ => []
  | fuel + 1, c :: rest =>
    match passSpanLen (c :: rest) with
    | some n => PassChunk.span ((c :: rest).take n) :: passDecompF fuel ((c :: rest).drop n)
    | none => PassChunk.lit c :: passDecompF fuel rest

/-- The decomposition with sufficient fuel. -/
def passDecomp (s : List Char) : List PassChunk := passDecompF s.length s

/-- The shape of a matched pass span: the keyword, a whitespace run, an
opening brace, a run free of closing braces, and the first closing brace. -/
def isPassSpan (sp : List Char) : Prop :=
  ∃ w mid, (∀ x ∈ w, isSpace x = true) ∧ (∀ x ∈ mid, ¬x = '\x7d')
    ∧ sp = sL "pass" ++ w ++ '\x7b' :: (mid ++ ['\x7d'])

/-- Inner content with two pass spans, only the second holding a
texture_unit (used to witness the per-span renaming rule). -/
def spanDemo : List Char :=
  sL "x pass \x7by\x7d pass \x7btexture_unit \x7d pass nospan"


theorem subMatch_kw_len {kw : List Char} {prev : Option Char} {s : List Char}
    (h : subMatch kw prev s = true) : 1 ≤ kw.length := by
  unfold subMatch at h
  rcases kw with _ | ⟨k, l⟩
  · simp at h
  · simp

theorem passSpanLen_pos {s : List Char} {n : Nat} (h : passSpanLen s = some n) : 1 ≤ n := by
  unfold passSpanLen at h
  split at h
  · split at h
    · split at h
      · injection h with h
        omega
      · exact absurd h (by simp)
    · exact absurd h (by simp)
  · exact absurd h (by simp)

theorem subKwF_inv (kw rep : List Char) :
    ∀ (f : Nat) (s : List Char) (g : Nat) (prev : Option Char),
      s.length ≤ f → s.length ≤ g → subKwF kw rep f prev s = subKwF kw rep g prev s := by
  intro f
  induction f with
  | zero =>
    intro s g prev hf hg
    have hs : s = [] := List.eq_nil_of_length_eq_zero (Nat.le_zero.mp hf)
    subst hs
    simp [subKwF]
  | succ f ih =>
    intro s g prev hf hg
    cases s with
    | nil => simp [subKwF]
    | cons c rest =>
      cases g with
      | zero => exact absurd hg (by simp)
      | succ g' =>
        by_cases hm : subMatch kw prev (c :: rest) = true
        · have hk := subMatch_kw_len hm
          simp only [subKwF, hm, if_true]
          rw [ih ((c :: rest).drop kw.length) g' (some (kw.getLastD ' '))
            (by simp only [List.length_drop, List.length_cons] at *; omega)
            (by simp only [List.length_drop, List.length_cons] at *; omega)]
        · simp only [Bool.not_eq_true] at hm
          simp only [subKwF, hm, Bool.false_eq_true, if_false]
          rw [ih rest g' (some c)
            (by simp only [List.length_cons] at *; omega)
            (by simp only [List.length_cons] at *; omega)]

theorem subKwAux_nil (kw rep : List Char) (prev : Option Char) : subKwAux kw rep prev [] = [] := rfl

theorem subKwAux_match {kw : List Char} {prev : Option Char} {c : Char} {rest : List Char}
    (rep : List Char) (hm : subMatch kw prev (c :: rest) = true) :
    subKwAux kw rep prev (c :: rest) =
      rep ++ subKwAux kw rep (some (kw.getLastD ' ')) ((c :: rest).drop kw.length) := by
  have hk := subMatch_kw_len hm
  unfold subKwAux
  simp only [List.length_cons, subKwF, hm, if_true]
  rw [subKwF_inv kw rep rest.length ((c :: rest).drop kw.length) ((c :: rest).drop kw.length).length
    (some (kw.getLastD ' '))
    (by simp only [List.length_drop, List.length_cons]; omega)
    (by omega)]

theorem subKwAux_skip {kw : List Char} {prev : Option Char} {c : Char} {rest : List Char}
    (rep : List Char) (hm : subMatch kw prev (c :: rest) = false) :
    subKwAux kw rep prev (c :: rest) = c :: subKwAux kw rep (some c) rest := by
  unfold subKwAux
  simp only [List.length_cons, subKwF, hm, Bool.false_eq_true, if_false]

theorem subPassF_inv :
    ∀ (f : Nat) (s : List Char) (g : Nat),
      s.length ≤ f → s.length ≤ g → subPassF f s = subPassF g s := by
  intro f
  induction f with
  | zero =>
    intro s g hf hg
    have hs : s = [] := List.eq_nil_of_length_eq_zero (Nat.le_zero.mp hf)
    subst hs
    simp [subPassF]
  | succ f ih =>
    intro s g hf hg
    cases s with
    | nil => simp [subPassF]
    | cons c rest =>
      cases g with
      | zero => exact absurd hg (by simp)
      | succ g' =>
        rcases hm : passSpanLen (c :: rest) with _ | n
        · simp only [subPassF, hm]
          rw [ih rest g'
            (by simp only [List.length_cons] at *; omega)
            (by simp only [List.length_cons] at *; omega)]
        · have hn := passSpanLen_pos hm
          simp only [subPassF, hm]
          rw [ih ((c :: rest).drop n) g'
            (by simp only [List.length_drop, List.length_cons] at *; omega)
            (by simp only [List.length_drop, List.length_cons] at *; omega)]

theorem subPass_nil : subPass [] = [] := rfl

theorem subPass_span {c : Char} {rest : List Char} {n : Nat}
    (hm : passSpanLen (c :: rest) = some n) :
    subPass (c :: rest) = replace_pass ((c :: rest).take n) ++ subPass ((c :: rest).drop n) := by
  have hn := passSpanLen_pos hm
  unfold subPass
  simp only [List.length_cons, subPassF, hm]
  rw [subPassF_inv rest.length ((c :: rest).drop n) ((c :: rest).drop n).length
    (by simp only [List.length_drop, List.length_cons]; omega)
    (by omega)]

theorem subPass_skip {c : Char} {rest : List Char}
    (hm : passSpanLen (c :: rest) = none) :
    subPass (c :: rest) = c :: subPass rest := by
  unfold subPass
  simp only [List.length_cons, subPassF, hm]

set_option maxRecDepth 40000 in
/-- C2: a file containing one material block with exactly 1 pass opener,
exactly 1 texture_unit opener and no shader-reference or tex_coord_set
substrings is rewritten so that the technique opener becomes `technique
BaseTechnique`, the sole pass `pass BaseRender`, the texture_unit
`texture_unit Diffuse_Map`, and the header `material Simple/Mat:
RoR/Managed_Mats/Base` with the original name-to-brace whitespace (here a
newline) preserved; the original bytes go to the backup and the fixed import
line plus a blank line is prepended to the output. -/
theorem C2_single_block_scenario :
    processFileModel scenarioContent =
      some { materials := [scenarioContent]
             outBlocks := [scenarioRewritten]
             updatedCount := 1
             newContent := some (importHeader ++ scenarioRewritten)
             backupContent := some scenarioContent } := by
  rfl

/-- C5 counterexample: the claim "no filesystem writes and no crash" fails on
the code.  With an existing directory and zero `.material` files the run
still creates the backup subdirectory (`mkdir` happens in the constructor),
and with a missing input directory the constructor's `mkdir` raises instead
of reporting (modelled by `none`). -/
theorem C5_counterexample :
    pssm_run { inputDirExists := false, files := [(sL "a.material", sL "material A \x7b\x7d")] } = none
    ∧ (pssm_run { inputDirExists := true, files := [] }).map RunOutcome.backupDirCreated = some true := by
  exact ⟨rfl, rfl⟩

/-- C5 (amended): a missing input directory aborts the run with an unhandled
error from the constructor's `mkdir`; an existing directory with no
`.material` files prints `No .material files found!` and terminates early
with no file contents touched and no backup copies made — but the backup
subdirectory itself has already been created by the constructor. -/
theorem C5_empty_and_missing_dir (fs : FSState) :
    (fs.inputDirExists = false → pssm_run fs = none)
    ∧ (fs.inputDirExists = true → fs.files = [] →
        pssm_run fs = some { backupDirCreated := true
                             files := fs.files
                             backups := []
                             messages := [sL "No .material files found!"]
                             processedFiles := 0
                             processedMaterials := 0
                             updatedMaterials := 0 }) := by
  constructor
  · intro h
    simp [pssm_run, h]
  · intro h hf
    simp [pssm_run, h, hf]

theorem C5_empty_and_missing_dir_witness :
    pssm_run { inputDirExists := false, files := [] } = none
    ∧ pssm_run { inputDirExists := true, files := [] } =
        some { backupDirCreated := true
               files := []
               backups := []
               messages := [sL "No .material files found!"]
               processedFiles := 0
               processedMaterials := 0
               updatedMaterials := 0 } :=
  ⟨(C5_empty_and_missing_dir { inputDirExists := false, files := [] }).1 rfl,
   (C5_empty_and_missing_dir { inputDirExists := true, files := [] }).2 rfl rfl⟩

/-- C9 counterexample: `noNameBlock` is accepted by `is_eligible_material`
(one pass opener, one texture_unit opener, no disqualifiers), yet the name
pattern finds no `[^\n\x7b]+` character after `material ` — the first
non-whitespace character is the opening brace — so `transform_material`
raises (`none` in the model) instead of terminating normally. -/
theorem C9_counterexample :
    is_eligible_material noNameBlock = true ∧ transform_material noNameBlock = none := by
  exact ⟨by decide, by decide⟩

/-- C10: every block returned by `parse_material_file` begins with the exact
nine characters `material ` (keyword plus a single space), whatever
whitespace followed the keyword in the input file. -/
theorem C10_blocks_normalized (content b : List Char)
    (hb : b ∈ parse_material_file content) :
    b.take 9 = sL "material " ∧ ∃ rest, b = sL "material " ++ rest := by
  unfold parse_material_file at hb
  rcases List.mem_map.mp hb with ⟨mat, -, rfl⟩
  refine ⟨?_, mat, rfl⟩
  have h9 : (9 : Nat) = (sL "material ").length := rfl
  rw [h9, List.take_left]

theorem C10_blocks_normalized_witness :
    (sL "material X \x7b\x7d").take 9 = sL "material "
    ∧ ∃ rest, sL "material X \x7b\x7d" = sL "material " ++ rest :=
  C10_blocks_normalized (sL "junk material   X \x7b\x7d") (sL "material X \x7b\x7d") (by decide)

/-- C8 counterexample: `preBraceTU` is accepted, but its transform is
accepted again — the single `texture_unit` opener lives between the name and
the first brace, survives verbatim in the rebuilt header, and still counts
on a second classification, so a second run would transform it again. -/
theorem C8_counterexample :
    is_eligible_material preBraceTU = true
    ∧ transform_material preBraceTU = some preBraceTUOut
    ∧ is_eligible_material preBraceTUOut = true := by
  exact ⟨by decide, by decide, by decide⟩

theorem cntAux_eq_countP (kw : List Char) :
    ∀ (t : List Char) (prev : Option Char),
      cntAux kw prev t =
        (List.range t.length).countP (fun i =>
          (match i with
           | 0 => boundaryB prev
           | j + 1 => !isWordChar (t.getD j ' ')) &&
          kw.isPrefixOf (t.drop i) &&
            (match ((t.drop i).drop kw.length).dropWhile isSpace with
             | '\x7b' :: _ => true
             | _ => false)) := by
  intro t
  induction t with
  | nil => intro prev; simp [cntAux]
  | cons c rest ih =>
    intro prev
    rw [List.length_cons, List.range_succ_eq_map, List.countP_cons, List.countP_map]
    have hzero :
        ((match (0 : Nat) with
          | 0 => boundaryB prev
          | j + 1 => !isWordChar ((c :: rest).getD j ' ')) &&
         kw.isPrefixOf ((c :: rest).drop 0) &&
           (match (((c :: rest).drop 0).drop kw.length).dropWhile isSpace with
            | '\x7b' :: _ => true
            | _ => false)) = cntMatch kw prev (c :: rest) := rfl
    have hcong :
        (List.range rest.length).countP
            ((fun i =>
              (match i with
               | 0 => boundaryB prev
               | j + 1 => !isWordChar ((c :: rest).getD j ' ')) &&
              kw.isPrefixOf ((c :: rest).drop i) &&
                (match (((c :: rest).drop i).drop kw.length).dropWhile isSpace with
                 | '\x7b' :: _ => true
                 | _ => false)) ∘ Nat.succ) =
          (List.range rest.length).countP (fun i =>
            (match i with
             | 0 => boundaryB (some c)
             | j + 1 => !isWordChar (rest.getD j ' ')) &&
            kw.isPrefixOf (rest.drop i) &&
              (match ((rest.drop i).drop kw.length).dropWhile isSpace with
               | '\x7b' :: _ => true
               | _ => false)) := by
      refine List.countP_congr ?_
      intro i _
      cases i with
      | zero => rfl
      | succ j => rfl
    rw [hcong, ← ih (some c), hzero]
    simp [cntAux]
    omega

theorem kwBraceCount_eq_spec (kw t : List Char) :
    kwBraceCount kw t = specOpenerCount kw t := by
  unfold kwBraceCount specOpenerCount
  rw [cntAux_eq_countP]
  refine List.countP_congr ?_
  intro i _
  cases i with
  | zero => rfl
  | succ j => rfl

/-- C1: `is_eligible_material` accepts a block exactly when (1) none of
`vertex_program_ref`, `fragment_program_ref`, `tex_coord_set` occurs as a
substring anywhere, (2) the number of positions holding the word `pass`
followed (through optional whitespace) by an opening brace is 1 or 2, and
(3) the number of such `texture_unit` openers is exactly 1. -/
theorem C1_classifier_characterization (t : List Char) :
    is_eligible_material t = true ↔
      ((hasSub (sL "vertex_program_ref") t = false
        ∧ hasSub (sL "fragment_program_ref") t = false
        ∧ hasSub (sL "tex_coord_set") t = false)
       ∧ (specOpenerCount (sL "pass") t = 1 ∨ specOpenerCount (sL "pass") t = 2)
       ∧ specOpenerCount (sL "texture_unit") t = 1) := by
  rw [← kwBraceCount_eq_spec, ← kwBraceCount_eq_spec]
  unfold is_eligible_material
  split
  · rename_i h
    simp only [Bool.or_eq_true] at h
    constructor
    · intro hx
      exact absurd hx (by simp)
    · rintro ⟨⟨h1, h2, h3⟩, -⟩
      rcases h with (h | h) | h
      · exact Bool.noConfusion (h1.symm.trans h)
      · exact Bool.noConfusion (h2.symm.trans h)
      · exact Bool.noConfusion (h3.symm.trans h)
  · rename_i h
    simp only [Bool.or_eq_true, not_or, Bool.not_eq_true] at h
    obtain ⟨⟨h1, h2⟩, h3⟩ := h
    simp [h1, h2, h3, Nat.beq_eq_true_eq]

theorem intercalate_cons2 (sep a b : List Char) (l : List (List Char)) :
    List.intercalate sep (a :: b :: l) = a ++ (sep ++ List.intercalate sep (b :: l)) := by
  simp [List.intercalate]

theorem intercalate_one (sep a : List Char) :
    List.intercalate sep [a] = a := by
  simp [List.intercalate]

theorem mem_intercalate_infix (sep : List Char) :
    ∀ (l : List (List Char)) (b : List Char), b ∈ l →
      ∃ u v, List.intercalate sep l = u ++ b ++ v := by
  intro l
  induction l with
  | nil => intro b hb; cases hb
  | cons x rest ih =>
    intro b hb
    rcases List.mem_cons.mp hb with rfl | hb
    · cases rest with
      | nil => exact ⟨[], [], by simp [intercalate_one]⟩
      | cons y r => exact ⟨[], sep ++ List.intercalate sep (y :: r), by simp [intercalate_cons2]⟩
    · cases rest with
      | nil => cases hb
      | cons y r =>
        rcases ih b hb with ⟨u, v, hu⟩
        exact ⟨x ++ sep ++ u, v, by simp [intercalate_cons2, hu]⟩

theorem processBlocksAux_spec :
    ∀ (mats outs : List (List Char)) (k : Nat), processBlocksAux mats = some (outs, k) →
      outs.length = mats.length
      ∧ (∀ p ∈ mats.zip outs, is_eligible_material p.1 = false → p.2 = p.1)
      ∧ (0 < k ↔ ∃ m ∈ mats, is_eligible_material m = true) := by
  intro mats
  induction mats with
  | nil =>
    intro outs k h
    unfold processBlocksAux at h
    simp only [Option.some.injEq, Prod.mk.injEq] at h
    obtain ⟨h1, h2⟩ := h
    subst h1; subst h2
    simp
  | cons m rest ih =>
    intro outs k h
    unfold processBlocksAux at h
    by_cases he : is_eligible_material m = true
    · rw [if_pos he] at h
      rcases ht : transform_material m with _ | tm <;> rw [ht] at h
      · exact absurd h (by simp)
      · rcases hr : processBlocksAux rest with _ | ⟨bs, k'⟩ <;> rw [hr] at h
        · exact absurd h (by simp)
        · simp only [Option.some.injEq, Prod.mk.injEq] at h
          obtain ⟨h1, h2⟩ := h
          subst h1; subst h2
          obtain ⟨hl, hz, -⟩ := ih bs k' hr
          refine ⟨by simp [hl], ?_, ?_⟩
          · intro p hp hpe
            rcases List.mem_cons.mp hp with rfl | hp
            · exact absurd he (by simp [hpe])
            · exact hz p hp hpe
          · constructor
            · intro _
              exact ⟨m, List.mem_cons_self m rest, he⟩
            · intro _
              omega
    · rw [if_neg he] at h
      rcases hr : processBlocksAux rest with _ | ⟨bs, k'⟩ <;> rw [hr] at h
      · exact absurd h (by simp)
      · simp only [Option.some.injEq, Prod.mk.injEq] at h
        obtain ⟨h1, h2⟩ := h
        subst h1; subst h2
        obtain ⟨hl, hz, hk⟩ := ih bs k' hr
        refine ⟨by simp [hl], ?_, ?_⟩
        · intro p hp hpe
          rcases List.mem_cons.mp hp with rfl | hp
          · rfl
          · exact hz p hp hpe
        · rw [hk]
          constructor
          · rintro ⟨mm, hmm, hme⟩
            exact ⟨mm, List.mem_cons_of_mem m hmm, hme⟩
          · rintro ⟨mm, hmm, hme⟩
            rcases List.mem_cons.mp hmm with rfl | hmm
            · exact absurd hme he
            · exact ⟨mm, hmm, hme⟩

/-- C3: for every input file whose processing completes, the rewritten
output is assembled from exactly as many blocks as were parsed from the
input, every ineligible block passes through byte-for-byte unchanged, and
whenever an output file is written each ineligible block's text occurs
verbatim inside it. -/
theorem C3_block_count_and_passthrough (content : List Char) (r : FileResult)
    (h : processFileModel content = some r) :
    r.outBlocks.length = r.materials.length
    ∧ (∀ p ∈ r.materials.zip r.outBlocks, is_eligible_material p.1 = false → p.2 = p.1)
    ∧ (∀ oc, r.newContent = some oc →
        ∀ p ∈ r.materials.zip r.outBlocks, is_eligible_material p.1 = false →
          ∃ u v, oc = u ++ p.1 ++ v) := by
  unfold processFileModel at h
  rcases hb : processBlocksAux (parse_material_file content) with _ | ⟨outs, k⟩ <;> rw [hb] at h
  · exact absurd h (by simp)
  · simp only [Option.some.injEq] at h
    subst h
    obtain ⟨hl, hz, -⟩ := processBlocksAux_spec _ _ _ hb
    refine ⟨hl, hz, ?_⟩
    intro oc hoc p hp hpe
    have hmem : p.2 ∈ outs := (List.mem_zip hp).2
    rcases mem_intercalate_infix (sL "\n\n") outs p.2 hmem with ⟨u, v, hu⟩
    simp only at hoc
    split at hoc
    · injection hoc with hoc
      refine ⟨importHeader ++ u, v, ?_⟩
      rw [← hoc, hu, hz p hp hpe]
      simp
    · exact absurd hoc (by simp)

set_option maxRecDepth 200000 in
theorem C3_block_count_and_passthrough_witness :
    mixedResult.outBlocks.length = mixedResult.materials.length
    ∧ (∀ p ∈ mixedResult.materials.zip mixedResult.outBlocks,
        is_eligible_material p.1 = false → p.2 = p.1)
    ∧ (∀ oc, mixedResult.newContent = some oc →
        ∀ p ∈ mixedResult.materials.zip mixedResult.outBlocks,
          is_eligible_material p.1 = false → ∃ u v, oc = u ++ p.1 ++ v) :=
  C3_block_count_and_passthrough mixedContent mixedResult (by rfl)

/-- C4: when at least one block of the file is eligible, the backup holds a
byte-identical copy of the original content (made before the overwrite) and
the new file is exactly the fixed import line, a blank line, and all blocks
joined with blank-line separators; with no eligible block, no backup is
made and nothing is written. -/
theorem C4_backup_then_write (content : List Char) (r : FileResult)
    (h : processFileModel content = some r) :
    ((∃ m ∈ r.materials, is_eligible_material m = true) →
        r.backupContent = some content
        ∧ r.newContent = some (importHeader ++ List.intercalate (sL "\n\n") r.outBlocks))
    ∧ ((∀ m ∈ r.materials, is_eligible_material m = false) →
        r.backupContent = none ∧ r.newContent = none) := by
  unfold processFileModel at h
  rcases hb : processBlocksAux (parse_material_file content) with _ | ⟨outs, k⟩ <;> rw [hb] at h
  · exact absurd h (by simp)
  · simp only [Option.some.injEq] at h
    subst h
    obtain ⟨-, -, hk⟩ := processBlocksAux_spec _ _ _ hb
    constructor
    · intro hex
      have hkpos : 0 < k := hk.mpr hex
      simp [hkpos]
    · intro hall
      have hkz : ¬0 < k := by
        intro hpos
        rcases hk.mp hpos with ⟨m, hm, hme⟩
        exact absurd hme (by simp [hall m hm])
      simp [hkz]

set_option maxRecDepth 200000 in
theorem C4_backup_then_write_witness :
    ((∃ m ∈ mixedResult.materials, is_eligible_material m = true) →
        mixedResult.backupContent = some mixedContent
        ∧ mixedResult.newContent =
            some (importHeader ++ List.intercalate (sL "\n\n") mixedResult.outBlocks))
    ∧ ((∀ m ∈ mixedResult.materials, is_eligible_material m = false) →
        mixedResult.backupContent = none ∧ mixedResult.newContent = none) :=
  C4_backup_then_write mixedContent mixedResult (by rfl)

theorem InsOf.refl (ws : List (List Char)) : ∀ a : List Char, InsOf ws a a := by
  intro a
  induction a with
  | nil => exact InsOf.nil
  | cons c rest ih => exact InsOf.keep c ih

theorem InsOf.append_keep (ws : List (List Char)) (x : List Char) {a b : List Char}
    (h : InsOf ws a b) : InsOf ws (x ++ a) (x ++ b) := by
  induction x with
  | nil => exact h
  | cons c rest ih => exact InsOf.keep c ih

theorem InsOf.append (ws : List (List Char)) {a b a' b' : List Char}
    (h : InsOf ws a b) (h' : InsOf ws a' b') : InsOf ws (a ++ a') (b ++ b') := by
  induction h with
  | nil => exact h'
  | keep c _ ih => exact InsOf.keep c ih
  | ins hw _ ih =>
    rw [List.append_assoc]
    exact InsOf.ins hw ih

theorem subKwAux_insOf (kw sfx : List Char) (ws : List (List Char)) (hw : sfx ∈ ws) :
    ∀ (n : Nat) (s : List Char), s.length ≤ n → ∀ prev,
      InsOf ws s (subKwAux kw (kw ++ sfx) prev s) := by
  intro n
  induction n with
  | zero =>
    intro s hs prev
    have h0 : s = [] := List.eq_nil_of_length_eq_zero (Nat.le_zero.mp hs)
    subst h0
    exact InsOf.nil
  | succ n ih =>
    intro s hs prev
    cases s with
    | nil => exact InsOf.nil
    | cons c rest =>
      by_cases hm : subMatch kw prev (c :: rest) = true
      · rw [subKwAux_match (kw ++ sfx) hm]
        have hk := subMatch_kw_len hm
        have hpre : kw.isPrefixOf (c :: rest) = true := by
          unfold subMatch at hm
          simp only [Bool.and_eq_true] at hm
          exact hm.1.1.2
        obtain ⟨t, ht⟩ := List.isPrefixOf_iff_prefix.mp hpre
        have hdrop : (c :: rest).drop kw.length = t := by
          rw [← ht, List.drop_left]
        rw [hdrop, ← ht, List.append_assoc]
        refine InsOf.append_keep ws kw (InsOf.ins hw (ih t ?_ _))
        have : (c :: rest).length = kw.length + t.length := by
          rw [← ht, List.length_append]
        simp only [List.length_cons] at this hs
        omega
      · rw [subKwAux_skip (kw ++ sfx) (Bool.not_eq_true _ ▸ hm)]
        refine InsOf.keep c (ih rest ?_ _)
        simp only [List.length_cons] at hs
        omega

theorem passSpanLen_shape {s : List Char} {n : Nat} (h : passSpanLen s = some n) :
    (sL "pass").isPrefixOf s = true ∧ 4 ≤ n := by
  unfold passSpanLen at h
  split at h
  · rename_i hp
    split at h
    · split at h
      · injection h with h
        exact ⟨hp, by omega⟩
      · exact absurd h (by simp)
    · exact absurd h (by simp)
  · exact absurd h (by simp)

theorem isPrefixOf_take {kw s : List Char} (h : kw.isPrefixOf s = true) {n : Nat}
    (hn : kw.length ≤ n) : kw.isPrefixOf (s.take n) = true := by
  obtain ⟨t, rfl⟩ := List.isPrefixOf_iff_prefix.mp h
  refine List.isPrefixOf_iff_prefix.mpr ⟨t.take (n - kw.length), ?_⟩
  rw [List.take_append_eq_append_take, List.take_of_length_le hn]

theorem pyReplaceFirst_head {needle rep : List Char} {c : Char} {rest : List Char}
    (h : needle.isPrefixOf (c :: rest) = true) (hne : needle ≠ []) :
    pyReplaceFirst needle rep (c :: rest) = rep ++ (c :: rest).drop needle.length := by
  have hemp : needle.isEmpty = false := by
    cases needle
    · exact absurd rfl hne
    · rfl
  unfold pyReplaceFirst
  simp [h, hemp]

theorem subPass_insOf (ws : List (List Char)) (hw : sL " BaseRender" ∈ ws) :
    ∀ (n : Nat) (s : List Char), s.length ≤ n → InsOf ws s (subPass s) := by
  intro n
  induction n with
  | zero =>
    intro s hs
    have h0 : s = [] := List.eq_nil_of_length_eq_zero (Nat.le_zero.mp hs)
    subst h0
    exact InsOf.nil
  | succ n ih =>
    intro s hs
    cases s with
    | nil => exact InsOf.nil
    | cons c rest =>
      rcases hm : passSpanLen (c :: rest) with _ | n'
      · rw [subPass_skip hm]
        refine InsOf.keep c (ih rest ?_)
        simp only [List.length_cons] at hs
        omega
      · rw [subPass_span hm]
        obtain ⟨hpre, hn4⟩ := passSpanLen_shape hm
        have hlen : ((c :: rest).drop n').length ≤ n := by
          simp only [List.length_drop, List.length_cons] at *
          omega
        conv_lhs => rw [← List.take_append_drop n' (c :: rest)]
        refine InsOf.append ws ?_ (ih _ hlen)
        unfold replace_pass
        split
        · have hpre4 : (sL "pass").isPrefixOf ((c :: rest).take n') = true :=
            isPrefixOf_take hpre (by simpa using hn4)
          rcases hn' : (c :: rest).take n' with _ | ⟨d, drest⟩
          · exact absurd (hn' ▸ hpre4) (by simp [sL])
          · rw [pyReplaceFirst_head (hn' ▸ hpre4) (by simp [sL])]
            obtain ⟨t2, ht2⟩ := List.isPrefixOf_iff_prefix.mp (hn' ▸ hpre4)
            rw [← ht2]
            have hdl : (sL "pass" ++ t2).drop (sL "pass").length = t2 := List.drop_left _ _
            rw [hdl]
            have hrep : sL "pass BaseRender" = sL "pass" ++ sL " BaseRender" := rfl
            rw [hrep, List.append_assoc]
            exact InsOf.append_keep ws (sL "pass") (InsOf.ins hw (InsOf.refl ws t2))
        · exact InsOf.refl ws _

/-- C6: on any inner content (in particular the slice between the outer
braces of every eligible block, to which `transform_material` applies
exactly this chain), each renaming substitution only inserts copies of its
fixed suffix word — ` BaseTechnique`, then ` BaseRender`, then
` Diffuse_Map` — so removing those inserted suffix identifiers step by step
recovers the original inner content textually; no other text is altered. -/
theorem C6_inner_content_roundtrip (inner : List Char) :
    InsOf [sL " BaseTechnique"] inner
        (subKw (sL "technique") (sL "technique BaseTechnique") inner)
    ∧ InsOf [sL " BaseRender"]
        (subKw (sL "technique") (sL "technique BaseTechnique") inner)
        (subPass (subKw (sL "technique") (sL "technique BaseTechnique") inner))
    ∧ InsOf [sL " Diffuse_Map"]
        (subPass (subKw (sL "technique") (sL "technique BaseTechnique") inner))
        (subKw (sL "texture_unit") (sL "texture_unit Diffuse_Map")
          (subPass (subKw (sL "technique") (sL "technique BaseTechnique") inner))) := by
  refine ⟨?_, ?_, ?_⟩
  · rw [show sL "technique BaseTechnique" = sL "technique" ++ sL " BaseTechnique" by decide]
    exact subKwAux_insOf _ _ _ (by simp) inner.length inner le_rfl none
  · exact subPass_insOf _ (by simp) _ _ le_rfl
  · rw [show sL "texture_unit Diffuse_Map" = sL "texture_unit" ++ sL " Diffuse_Map" by decide]
    exact subKwAux_insOf _ _ _ (by simp) _ _ le_rfl none

theorem passDecompF_inv :
    ∀ (f : Nat) (s : List Char) (g : Nat),
      s.length ≤ f → s.length ≤ g → passDecompF f s = passDecompF g s := by
  intro f
  induction f with
  | zero =>
    intro s g hf hg
    have hs : s = [] := List.eq_nil_of_length_eq_zero (Nat.le_zero.mp hf)
    subst hs
    simp [passDecompF]
  | succ f ih =>
    intro s g hf hg
    cases s with
    | nil => simp [passDecompF]
    | cons c rest =>
      cases g with
      | zero => exact absurd hg (by simp)
      | succ g' =>
        rcases hm : passSpanLen (c :: rest) with _ | n
        · simp only [passDecompF, hm]
          rw [ih rest g'
            (by simp only [List.length_cons] at *; omega)
            (by simp only [List.length_cons] at *; omega)]
        · have hn := passSpanLen_pos hm
          simp only [passDecompF, hm]
          rw [ih ((c :: rest).drop n) g'
            (by simp only [List.length_drop, List.length_cons] at *; omega)
            (by simp only [List.length_drop, List.length_cons] at *; omega)]

theorem passDecomp_span {c : Char} {rest : List Char} {n : Nat}
    (hm : passSpanLen (c :: rest) = some n) :
    passDecomp (c :: rest) = PassChunk.span ((c :: rest).take n) :: passDecomp ((c :: rest).drop n) := by
  have hn := passSpanLen_pos hm
  unfold passDecomp
  simp only [List.length_cons, passDecompF, hm]
  rw [passDecompF_inv rest.length ((c :: rest).drop n) ((c :: rest).drop n).length
    (by simp only [List.length_drop, List.length_cons]; omega)
    (by omega)]

theorem passDecomp_skip {c : Char} {rest : List Char}
    (hm : passSpanLen (c :: rest) = none) :
    passDecomp (c :: rest) = PassChunk.lit c :: passDecomp rest := by
  unfold passDecomp
  simp only [List.length_cons, passDecompF, hm]

theorem findFirstIdx_decomp (p : Char → Bool) :
    ∀ (l : List Char) (j : Nat), findFirstIdx p l = some j →
      ∃ pre a post, l = pre ++ a :: post ∧ pre.length = j
        ∧ (∀ x ∈ pre, p x = false) ∧ p a = true := by
  intro l
  induction l with
  | nil => intro j h; exact absurd h (by simp [findFirstIdx])
  | cons c rest ih =>
    intro j h
    unfold findFirstIdx at h
    by_cases hp : p c = true
    · rw [if_pos hp] at h
      injection h with h
      exact ⟨[], c, rest, rfl, h ▸ rfl, by simp, hp⟩
    · rw [if_neg hp] at h
      rcases hj : findFirstIdx p rest with _ | j' <;> rw [hj] at h
      · exact absurd h (by simp)
      · simp only [Option.map_some', Option.some.injEq] at h
        rcases ih j' hj with ⟨pre, a, post, hl, hlen, hpre, ha⟩
        refine ⟨c :: pre, a, post, by rw [hl]; rfl, by simp [hlen, ← h], ?_, ha⟩
        intro x hx
        rcases List.mem_cons.mp hx with rfl | hx
        · exact Bool.not_eq_true _ ▸ hp
        · exact hpre x hx

theorem drop_takeWhile_length (p : Char → Bool) :
    ∀ l : List Char, l.drop (l.takeWhile p).length = l.dropWhile p := by
  intro l
  induction l with
  | nil => rfl
  | cons c rest ih =>
    by_cases hp : p c = true
    · simp [List.takeWhile_cons, List.dropWhile_cons, hp, ih]
    · simp [List.takeWhile_cons, List.dropWhile_cons, hp]

theorem passSpanLen_decomp {s : List Char} {n : Nat} (h : passSpanLen s = some n) :
    ∃ w mid t, (∀ x ∈ w, isSpace x = true) ∧ (∀ x ∈ mid, ¬x = '\x7d')
      ∧ s = (sL "pass" ++ w ++ '\x7b' :: (mid ++ ['\x7d'])) ++ t
      ∧ n = (sL "pass" ++ w ++ '\x7b' :: (mid ++ ['\x7d'])).length := by
  unfold passSpanLen at h
  split at h
  · rename_i hp
    split at h
    · rename_i heq
      split at h
      · rename_i j hfind
        injection h with hn
        obtain ⟨t0, ht0⟩ := List.isPrefixOf_iff_prefix.mp hp
        have hd4 : s.drop 4 = t0 := by
          rw [show (4 : Nat) = (sL "pass").length from rfl, ← ht0, List.drop_left]
        have hdw := drop_takeWhile_length isSpace (s.drop 4)
        rw [hdw] at heq
        rcases hbody : (s.drop 4).dropWhile isSpace with _ | ⟨b, body⟩
        · rw [hbody] at heq
          exact absurd heq (by simp)
        · rw [hbody] at heq
          injection heq with hb
          subst hb
          have hbody1 : (s.drop 4).drop (((s.drop 4).takeWhile isSpace).length + 1) = body := by
            have h1 : ((s.drop 4).drop (((s.drop 4).takeWhile isSpace).length)).drop 1 = body := by
              rw [hdw, hbody]
              rfl
            rw [← h1]
            conv_rhs => rw [List.drop_drop]
          rw [hbody1] at hfind
          obtain ⟨mid, a, t, hbl, hml, hmid, ha⟩ := findFirstIdx_decomp _ _ _ hfind
          have ha' : a = '\x7d' := of_decide_eq_true ha
          subst ha'
          have hsp : s.drop 4
              = (s.drop 4).takeWhile isSpace ++ ('\x7b' :: (mid ++ '\x7d' :: t)) := by
            conv_lhs => rw [← List.takeWhile_append_dropWhile isSpace (s.drop 4)]
            rw [hbody, hbl]
          have ht0' : t0 = (s.drop 4).takeWhile isSpace ++ ('\x7b' :: (mid ++ '\x7d' :: t)) := by
            rw [← hd4]
            exact hsp
          refine ⟨(s.drop 4).takeWhile isSpace, mid, t, ?_, ?_, ?_, ?_⟩
          · intro x hx
            exact List.mem_takeWhile_imp hx
          · intro x hx
            exact of_decide_eq_false (hmid x hx)
          · have key : ∀ w0 : List Char, t0 = w0 ++ ('\x7b' :: (mid ++ '\x7d' :: t)) →
                s = (sL "pass" ++ w0 ++ '\x7b' :: (mid ++ ['\x7d'])) ++ t := by
              intro w0 hw0
              rw [← ht0, hw0]
              simp
            exact key _ ht0'
          · have hlp : (sL "pass").length = 4 := rfl
            simp only [List.length_append, List.length_cons, List.length_nil]
            rw [hlp]
            omega
      · exact absurd h (by simp)
    · exact absurd h (by simp)
  · exact absurd h (by simp)

theorem passDecomp_sound :
    ∀ (n : Nat) (s : List Char), s.length ≤ n →
      chunksText (passDecomp s) = s
      ∧ subPass s = ((passDecomp s).map (fun ch =>
          match ch with
          | PassChunk.lit c => [c]
          | PassChunk.span sp => replace_pass sp)).flatten
      ∧ (∀ sp, PassChunk.span sp ∈ passDecomp s → isPassSpan sp) := by
  intro n
  induction n with
  | zero =>
    intro s hs
    have h0 : s = [] := List.eq_nil_of_length_eq_zero (Nat.le_zero.mp hs)
    subst h0
    refine ⟨rfl, rfl, ?_⟩
    intro sp hsp
    simp [passDecomp, passDecompF] at hsp
  | succ n ih =>
    intro s hs
    cases s with
    | nil =>
      refine ⟨rfl, rfl, ?_⟩
      intro sp hsp
      simp [passDecomp, passDecompF] at hsp
    | cons c rest =>
      rcases hm : passSpanLen (c :: rest) with _ | n'
      · rw [passDecomp_skip hm, subPass_skip hm]
        obtain ⟨h1, h2, h3⟩ := ih rest (by simp only [List.length_cons] at hs; omega)
        refine ⟨?_, ?_, ?_⟩
        · simp [chunksText, chunkText] at h1 ⊢
          exact h1
        · simp only [List.map_cons, List.flatten_cons, h2]
          rfl
        · intro sp hsp
          rcases List.mem_cons.mp hsp with heq | hsp
          · exact PassChunk.noConfusion heq
          · exact h3 sp hsp
      · have hn' := passSpanLen_pos hm
        rw [passDecomp_span hm, subPass_span hm]
        have hlen : ((c :: rest).drop n').length ≤ n := by
          simp only [List.length_drop, List.length_cons] at *
          omega
        obtain ⟨h1, h2, h3⟩ := ih _ hlen
        refine ⟨?_, ?_, ?_⟩
        · simp only [chunksText, chunkText, List.map_cons, List.flatten_cons] at h1 ⊢
          rw [h1, List.take_append_drop]
        · simp only [List.map_cons, List.flatten_cons, h2]
        · intro sp hsp
          rcases List.mem_cons.mp hsp with heq | hsp
          · injection heq with hsp'
            subst hsp'
            obtain ⟨w, mid, t, hw, hmid, hseq, hlen'⟩ := passSpanLen_decomp hm
            refine ⟨w, mid, hw, hmid, ?_⟩
            rw [hseq]
            exact List.take_left' hlen'.symm
          · exact h3 sp hsp

theorem pyReplaceFirst_head' {needle rep s : List Char}
    (h : needle.isPrefixOf s = true) (hne : needle ≠ []) (hs : s ≠ []) :
    pyReplaceFirst needle rep s = rep ++ s.drop needle.length := by
  cases s with
  | nil => exact absurd rfl hs
  | cons c rest => exact pyReplaceFirst_head h hne

theorem replace_pass_of_span {sp : List Char} (hsp : isPassSpan sp) :
    (hasSub (sL "texture_unit") sp = true →
      replace_pass sp = pyReplaceFirst (sL "pass") (sL "pass BaseRender") sp
      ∧ replace_pass sp = sL "pass BaseRender" ++ sp.drop 4)
    ∧ (hasSub (sL "texture_unit") sp = false → replace_pass sp = sp) := by
  obtain ⟨w, mid, hw, hmid, rfl⟩ := hsp
  constructor
  · intro htu
    have hpre : (sL "pass").isPrefixOf (sL "pass" ++ w ++ '\x7b' :: (mid ++ ['\x7d'])) = true :=
      List.isPrefixOf_iff_prefix.mpr ⟨w ++ '\x7b' :: (mid ++ ['\x7d']), by simp⟩
    have hrw : pyReplaceFirst (sL "pass") (sL "pass BaseRender")
          (sL "pass" ++ w ++ '\x7b' :: (mid ++ ['\x7d']))
        = sL "pass BaseRender" ++ (sL "pass" ++ w ++ '\x7b' :: (mid ++ ['\x7d'])).drop 4 := by
      rw [pyReplaceFirst_head' hpre (by simp [sL]) (by simp [sL])]
      rfl
    constructor
    · unfold replace_pass
      rw [if_pos htu]
    · unfold replace_pass
      rw [if_pos htu, hrw]
  · intro htu
    unfold replace_pass
    rw [if_neg (by rw [htu]; simp)]

/-- C7: the `pass\s*\x7b...\x7d` scan decomposes the inner content into
literal characters and matched spans (non-greedy: each span runs to the
first closing brace); `subPass` rewrites exactly the matched spans, and a
span is rewritten — its first occurrence of `pass` renamed to
`pass BaseRender` — precisely when it contains the substring
`texture_unit`; spans without it are left untouched. -/
theorem C7_span_renaming_rule (s : List Char) :
    chunksText (passDecomp s) = s
    ∧ subPass s = ((passDecomp s).map (fun ch =>
        match ch with
        | PassChunk.lit c => [c]
        | PassChunk.span sp => replace_pass sp)).flatten
    ∧ ∀ sp, PassChunk.span sp ∈ passDecomp s →
        isPassSpan sp
        ∧ (hasSub (sL "texture_unit") sp = true →
            replace_pass sp = pyReplaceFirst (sL "pass") (sL "pass BaseRender") sp
            ∧ replace_pass sp = sL "pass BaseRender" ++ sp.drop 4)
        ∧ (hasSub (sL "texture_unit") sp = false → replace_pass sp = sp) := by
  obtain ⟨h1, h2, h3⟩ := passDecomp_sound s.length s le_rfl
  refine ⟨h1, h2, ?_⟩
  intro sp hsp
  have hps := h3 sp hsp
  obtain ⟨ha, hb⟩ := replace_pass_of_span hps
  exact ⟨hps, ha, hb⟩

set_option maxRecDepth 40000 in
theorem C7_span_renaming_rule_witness :
    chunksText (passDecomp spanDemo) = spanDemo
    ∧ subPass spanDemo = ((passDecomp spanDemo).map (fun ch =>
        match ch with
        | PassChunk.lit c => [c]
        | PassChunk.span sp => replace_pass sp)).flatten
    ∧ ∀ sp, PassChunk.span sp ∈ passDecomp spanDemo →
        isPassSpan sp
        ∧ (hasSub (sL "texture_unit") sp = true →
            replace_pass sp = pyReplaceFirst (sL "pass") (sL "pass BaseRender") sp
            ∧ replace_pass sp = sL "pass BaseRender" ++ sp.drop 4)
        ∧ (hasSub (sL "texture_unit") sp = false → replace_pass sp = sp) :=
  C7_span_renaming_rule spanDemo

theorem dropWhile_head_not (p : Char → Bool) :
    ∀ (l : List Char) (c : Char) (rest : List Char), l.dropWhile p = c :: rest → p c = false := by
  intro l
  induction l with
  | nil => intro c rest h; exact absurd h (by simp)
  | cons d tail ih =>
    intro c rest h
    by_cases hp : p d = true
    · rw [List.dropWhile_cons_of_pos hp] at h
      exact ih c rest h
    · rw [List.dropWhile_cons_of_neg hp] at h
      injection h with h1 h2
      subst h1
      exact Bool.not_eq_true _ ▸ hp

theorem nameG1_of_nameOk {t : List Char} (h : nameOkB t = true) :
    ∃ g, nameG1 t = some g := by
  unfold nameOkB at h
  simp only [Bool.and_eq_true] at h
  obtain ⟨⟨hp, hm⟩, hmt⟩ := h
  have hm1 : 1 ≤ ((t.drop 8).takeWhile isSpace).length := of_decide_eq_true hm
  rcases hq : (t.drop 8).dropWhile isSpace with _ | ⟨c, rest'⟩
  · rw [hq] at hmt
    exact absurd hmt (by simp)
  · rw [hq] at hmt
    have hc : ¬c = '\x7b' := of_decide_eq_true hmt
    have hcs : isSpace c = false := dropWhile_head_not isSpace _ _ _ hq
    have hcn : ¬c = '\n' := by
      intro hcn
      subst hcn
      exact absurd hcs (by simp [isSpace])
    rcases hmm : ((t.drop 8).takeWhile isSpace).length with _ | p
    · omega
    · have hdropm : (t.drop 8).drop (p + 1) = c :: rest' := by
        rw [← hmm, drop_takeWhile_length, hq]
      refine ⟨((t.drop 8).drop (p + 1)).takeWhile (fun x => !(x = '\n' || x = '\x7b')), ?_⟩
      unfold nameG1
      rw [if_pos hp]
      show tryG1 (t.drop 8) (((t.drop 8).takeWhile isSpace).length)
        = some (((t.drop 8).drop (p + 1)).takeWhile (fun x => !(x = '\n' || x = '\x7b')))
      rw [hmm]
      unfold tryG1
      rw [hdropm]
      simp only [List.head?_cons]
      rw [if_pos (by simp [hcn, hc])]

theorem brace_of_lookB {l : List Char}
    (h : (match l with | '\x7b' :: _ => true | _ => false) = true) : '\x7b' ∈ l := by
  rcases l with _ | ⟨d, tail⟩
  · simp at h
  · split at h
    · rename_i heq
      injection heq with h1 h2
      subst h1
      exact List.mem_cons_self _ _
    · exact absurd h (by simp)

theorem brace_mem_of_cnt_pos (kw : List Char) :
    ∀ (t : List Char) (prev : Option Char), 1 ≤ cntAux kw prev t → '\x7b' ∈ t := by
  intro t
  induction t with
  | nil => intro prev h; simp [cntAux] at h
  | cons c rest ih =>
    intro prev h
    by_cases hm : cntMatch kw prev (c :: rest) = true
    · unfold cntMatch at hm
      simp only [Bool.and_eq_true] at hm
      have hbr := brace_of_lookB hm.2
      have h1 : '\x7b' ∈ (c :: rest).drop kw.length :=
        (List.dropWhile_sublist _).mem hbr
      exact (List.drop_sublist _ _).mem h1
    · have h2 : 1 ≤ cntAux kw (some c) rest := by
        unfold cntAux at h
        rw [if_neg hm] at h
        omega
      exact List.mem_cons_of_mem c (ih (some c) h2)

theorem findFirstIdx_isSome_of_mem {ch : Char} :
    ∀ {t : List Char}, ch ∈ t → ∃ i, findFirstIdx (fun c => c = ch) t = some i := by
  intro t
  induction t with
  | nil => intro h; cases h
  | cons c rest ih =>
    intro h
    by_cases hc : c = ch
    · exact ⟨0, by unfold findFirstIdx; rw [if_pos (by simp [hc])]⟩
    · rcases List.mem_cons.mp h with rfl | h
      · exact absurd rfl hc
      · rcases ih h with ⟨i, hi⟩
        exact ⟨i + 1, by unfold findFirstIdx; rw [if_neg (by simp [hc]), hi]; rfl⟩

theorem pyFind_nonneg_of_mem {ch : Char} {t : List Char} (h : ch ∈ t) :
    0 ≤ pyFind ch t := by
  rcases findFirstIdx_isSome_of_mem h with ⟨i, hi⟩
  unfold pyFind
  rw [hi]
  exact Int.ofNat_nonneg i

theorem pyRfind_nonneg_of_mem {ch : Char} {t : List Char} (h : ch ∈ t) :
    0 ≤ pyRfind ch t := by
  rcases findFirstIdx_isSome_of_mem (List.mem_reverse.mpr h) with ⟨j, hj⟩
  unfold pyRfind
  rw [hj]
  exact Int.ofNat_nonneg _

/-- C9 (amended): the name-extraction pattern does not match every accepted
block (see the counterexample), but for every accepted block that has a
usable name — at least one whitespace character after `material` and a first
non-whitespace character that is not the opening brace — `transform_material`
terminates normally (returns a result rather than raising), and the first
opening brace used by the slicing exists; when the block contains a closing
brace at all, the last-closing-brace lookup also yields a found position
rather than the `-1` sentinel (neither case can raise). -/
theorem C9_transform_total_on_named_blocks (t : List Char)
    (he : is_eligible_material t = true) (hn : nameOkB t = true) :
    (transform_material t).isSome = true
    ∧ 0 ≤ pyFind '\x7b' t
    ∧ ('\x7d' ∈ t → 0 ≤ pyRfind '\x7d' t) := by
  refine ⟨?_, ?_, fun hm => pyRfind_nonneg_of_mem hm⟩
  · rcases nameG1_of_nameOk hn with ⟨g, hg⟩
    unfold transform_material
    rw [hg]
    rfl
  · have hpc : 1 ≤ kwBraceCount (sL "pass") t := by
      unfold is_eligible_material at he
      split at he
      · exact absurd he (by simp)
      · simp only [Bool.and_eq_true, Bool.or_eq_true, beq_iff_eq] at he
        rcases he.1 with h1 | h1 <;> omega
    exact pyFind_nonneg_of_mem (brace_mem_of_cnt_pos (sL "pass") t none hpc)

theorem C9_transform_total_on_named_blocks_witness :
    (transform_material (sL "material A \x7bpass \x7btexture_unit \x7bx\x7d\x7d\x7d")).isSome = true
    ∧ 0 ≤ pyFind '\x7b' (sL "material A \x7bpass \x7btexture_unit \x7bx\x7d\x7d\x7d")
    ∧ ('\x7d' ∈ sL "material A \x7bpass \x7btexture_unit \x7bx\x7d\x7d\x7d" →
        0 ≤ pyRfind '\x7d' (sL "material A \x7bpass \x7btexture_unit \x7bx\x7d\x7d\x7d")) :=
  C9_transform_total_on_named_blocks (sL "material A \x7bpass \x7btexture_unit \x7bx\x7d\x7d\x7d")
    (by decide) (by decide)

theorem isPrefixOf_append_right {ks l y : List Char} (h : ks.isPrefixOf l = true) :
    ks.isPrefixOf (l ++ y) = true := by
  obtain ⟨t, rfl⟩ := List.isPrefixOf_iff_prefix.mp h
  exact List.isPrefixOf_iff_prefix.mpr ⟨t ++ y, by simp⟩

theorem not_prefix_cross {ks l : List Char} {c : Char} {tail : List Char}
    (hc : ¬c ∈ ks) (h : ks.isPrefixOf (l ++ c :: tail) = true) :
    ks.isPrefixOf l = true := by
  obtain ⟨t2, ht2⟩ := List.isPrefixOf_iff_prefix.mp h
  by_cases hl : ks.length ≤ l.length
  · refine List.isPrefixOf_iff_prefix.mpr ⟨l.drop ks.length, ?_⟩
    have htake : (l ++ c :: tail).take ks.length = ks := by
      rw [← ht2, List.take_left]
    rw [List.take_append_eq_append_take] at htake
    have h0 : ks.length - l.length = 0 := by omega
    rw [h0, List.take_zero, List.append_nil] at htake
    conv_rhs => rw [← List.take_append_drop ks.length l]
    rw [htake]
  · exfalso
    apply hc
    have hidx : (ks ++ t2)[l.length]? = some c := by
      rw [ht2]
      rw [List.getElem?_append_right (by omega)]
      simp
    rw [List.getElem?_append] at hidx
    rw [if_pos (by omega)] at hidx
    exact List.getElem?_mem hidx

theorem hasSub_append_right {needle x y : List Char} (h : hasSub needle x = true) :
    hasSub needle (x ++ y) = true := by
  induction x with
  | nil =>
    unfold hasSub at h
    have h0 : needle = [] := by
      cases needle
      · rfl
      · simp at h
    subst h0
    cases y <;> simp [hasSub, List.isPrefixOf]
  | cons c rest ih =>
    unfold hasSub at h ⊢
    rcases Bool.or_eq_true_iff.mp h with h1 | h1
    · exact Bool.or_eq_true_iff.mpr (Or.inl (isPrefixOf_append_right h1))
    · exact Bool.or_eq_true_iff.mpr (Or.inr (ih h1))

theorem hasSub_of_all_not_mem {needle y : List Char} (hne : needle ≠ [])
    (h : ∀ x ∈ y, ¬x ∈ needle) : hasSub needle y = false := by
  induction y with
  | nil =>
    unfold hasSub
    cases needle
    · exact absurd rfl hne
    · rfl
  | cons c rest ih =>
    unfold hasSub
    have h1 : needle.isPrefixOf (c :: rest) = false := by
      rcases hn : needle with _ | ⟨n0, ntail⟩
      · exact absurd hn hne
      · by_contra hcon
        rw [Bool.not_eq_false] at hcon
        obtain ⟨t, ht⟩ := List.isPrefixOf_iff_prefix.mp hcon
        have hn0 : n0 = c := by
          have := congrArg (fun l => l.head?) ht
          simpa using this
        exact (h c (List.mem_cons_self _ _)) (by rw [hn, hn0]; exact List.mem_cons_self _ _)
    rw [h1]
    simp only [Bool.false_or]
    exact ih (fun x hx => h x (List.mem_cons_of_mem c hx))

theorem hasSub_append_no_cross {needle x : List Char} {c : Char} {y : List Char}
    (hne : needle ≠ []) (hc : ¬c ∈ needle)
    (hx : hasSub needle x = false) (hy : hasSub needle (c :: y) = false) :
    hasSub needle (x ++ c :: y) = false := by
  induction x with
  | nil => exact hy
  | cons d x' ih =>
    unfold hasSub at hx
    rcases hx1 : needle.isPrefixOf (d :: x') with _ | _
    · rcases hx2 : hasSub needle x' with _ | _
      · have h1 : needle.isPrefixOf (d :: (x' ++ c :: y)) = false := by
          by_contra hcon
          rw [Bool.not_eq_false] at hcon
          have := @not_prefix_cross needle (d :: x') c y hc hcon
          exact absurd this (by rw [hx1]; simp)
        show hasSub needle (d :: (x' ++ c :: y)) = false
        rw [show hasSub needle (d :: (x' ++ c :: y))
            = (needle.isPrefixOf (d :: (x' ++ c :: y)) || hasSub needle (x' ++ c :: y)) from rfl]
        rw [h1, ih hx2]
        rfl
      · rw [hx1, hx2] at hx
        simp at hx
    · rw [hx1] at hx
      simp at hx

theorem cnt_after_lbrace :
    ∀ (x : List Char), hasSub (sL "texture_unit") (x ++ ['\x7b']) = false →
      ∀ (prev : Option Char) (y : List Char),
        cntAux (sL "texture_unit") prev (x ++ '\x7b' :: y)
          = cntAux (sL "texture_unit") (some '\x7b') y := by
  intro x
  induction x with
  | nil =>
    intro hx prev y
    simp only [List.nil_append]
    rw [show cntAux (sL "texture_unit") prev ('\x7b' :: y)
        = (if cntMatch (sL "texture_unit") prev ('\x7b' :: y) = true then 1 else 0)
          + cntAux (sL "texture_unit") (some '\x7b') y from rfl]
    have hm : cntMatch (sL "texture_unit") prev ('\x7b' :: y) = false := by
      unfold cntMatch
      simp [sL, List.isPrefixOf]
    rw [hm]
    simp
  | cons d x' ih =>
    intro hx prev y
    have hx' : hasSub (sL "texture_unit") (x' ++ ['\x7b']) = false := by
      unfold hasSub at hx
      rcases Bool.or_eq_false_iff.mp (by simpa using hx) with ⟨-, h2⟩
      exact h2
    show cntAux (sL "texture_unit") prev (d :: (x' ++ '\x7b' :: y))
        = cntAux (sL "texture_unit") (some '\x7b') y
    rw [show cntAux (sL "texture_unit") prev (d :: (x' ++ '\x7b' :: y))
        = (if cntMatch (sL "texture_unit") prev (d :: (x' ++ '\x7b' :: y)) = true then 1 else 0)
          + cntAux (sL "texture_unit") (some d) (x' ++ '\x7b' :: y) from rfl]
    have hm : cntMatch (sL "texture_unit") prev (d :: (x' ++ '\x7b' :: y)) = false := by
      unfold cntMatch
      rcases hpre : (sL "texture_unit").isPrefixOf (d :: (x' ++ '\x7b' :: y)) with _ | _
      · simp [hpre]
      · exfalso
        have hpre2 : (sL "texture_unit").isPrefixOf (d :: x') = true :=
          @not_prefix_cross (sL "texture_unit") (d :: x') '\x7b' y (by decide) hpre
        have hcross : hasSub (sL "texture_unit") ((d :: x') ++ ['\x7b']) = true := by
          unfold hasSub
          exact Bool.or_eq_true_iff.mpr (Or.inl (isPrefixOf_append_right hpre2))
        exact Bool.noConfusion (hx.symm.trans hcross)
    rw [hm]
    simp only [Bool.false_eq_true, if_false, Nat.zero_add]
    exact ih hx' (some d) y

theorem look_append_rbrace :
    ∀ X : List Char,
      (match (X ++ ['\x7d']).dropWhile isSpace with
       | '\x7b' :: _ => true
       | _ => false)
      = (match X.dropWhile isSpace with
         | '\x7b' :: _ => true
         | _ => false) := by
  intro X
  induction X with
  | nil => simp [isSpace]
  | cons c X' ih =>
    by_cases hc : isSpace c = true
    · rw [show (c :: X') ++ ['\x7d'] = c :: (X' ++ ['\x7d']) from rfl,
        List.dropWhile_cons_of_pos hc, List.dropWhile_cons_of_pos hc]
      exact ih
    · rw [show (c :: X') ++ ['\x7d'] = c :: (X' ++ ['\x7d']) from rfl,
        List.dropWhile_cons_of_neg hc, List.dropWhile_cons_of_neg hc]
      by_cases hcc : c = '\x7b'
      · subst hcc
        rfl
      · split
        · rename_i heq
          injection heq with h1 h2
          exact absurd h1 hcc
        · split
          · rename_i heq
            injection heq with h1 h2
            exact absurd h1 hcc
          · rfl

theorem cntMatch_append_rbrace (prev : Option Char) (s : List Char) :
    cntMatch (sL "texture_unit") prev (s ++ ['\x7d'])
      = cntMatch (sL "texture_unit") prev s := by
  unfold cntMatch
  rcases hpre : (sL "texture_unit").isPrefixOf s with _ | _
  · have hpre2 : (sL "texture_unit").isPrefixOf (s ++ ['\x7d']) = false := by
      by_contra hcon
      rw [Bool.not_eq_false] at hcon
      have := @not_prefix_cross (sL "texture_unit") s '\x7d' [] (by decide) hcon
      exact Bool.noConfusion (hpre.symm.trans this)
    rw [hpre2]
    simp
  · have hpre2 : (sL "texture_unit").isPrefixOf (s ++ ['\x7d']) = true :=
      isPrefixOf_append_right hpre
    rw [hpre2]
    obtain ⟨t2, ht2⟩ := List.isPrefixOf_iff_prefix.mp hpre
    have hlen : (sL "texture_unit").length ≤ s.length := by
      rw [← ht2]
      simp
    have hdrop : (s ++ ['\x7d']).drop (sL "texture_unit").length
        = s.drop (sL "texture_unit").length ++ ['\x7d'] :=
      List.drop_append_of_le_length hlen
    rw [hdrop, look_append_rbrace]

theorem cnt_append_rbrace :
    ∀ (z : List Char) (prev : Option Char),
      cntAux (sL "texture_unit") prev (z ++ ['\x7d'])
        = cntAux (sL "texture_unit") prev z := by
  intro z
  induction z with
  | nil =>
    intro prev
    rw [show ([] : List Char) ++ ['\x7d'] = ['\x7d'] from rfl]
    rw [show cntAux (sL "texture_unit") prev ['\x7d']
        = (if cntMatch (sL "texture_unit") prev ['\x7d'] = true then 1 else 0)
          + cntAux (sL "texture_unit") (some '\x7d') [] from rfl]
    have hm : cntMatch (sL "texture_unit") prev ['\x7d'] = false := by
      unfold cntMatch
      simp [sL, List.isPrefixOf]
    rw [hm]
    rfl
  | cons c z' ih =>
    intro prev
    rw [show (c :: z') ++ ['\x7d'] = c :: (z' ++ ['\x7d']) from rfl]
    rw [show cntAux (sL "texture_unit") prev (c :: (z' ++ ['\x7d']))
        = (if cntMatch (sL "texture_unit") prev (c :: (z' ++ ['\x7d'])) = true then 1 else 0)
          + cntAux (sL "texture_unit") (some c) (z' ++ ['\x7d']) from rfl]
    rw [show cntAux (sL "texture_unit") prev (c :: z')
        = (if cntMatch (sL "texture_unit") prev (c :: z') = true then 1 else 0)
          + cntAux (sL "texture_unit") (some c) z' from rfl]
    rw [show c :: (z' ++ ['\x7d']) = (c :: z') ++ ['\x7d'] from rfl,
      cntMatch_append_rbrace prev (c :: z'), ih (some c)]

theorem subKwAux_word_prev_cons {kw rep : List Char} {p y : Char} {rest : List Char}
    (hp : isWordChar p = true) :
    subKwAux kw rep (some p) (y :: rest) = y :: subKwAux kw rep (some y) rest := by
  apply subKwAux_skip
  unfold subMatch boundaryB
  simp [hp]

theorem subKwAux_copy_word_run (kw rep : List Char) :
    ∀ (ks : List Char), (∀ k ∈ ks, isWordChar k = true) →
      ∀ (p : Char), isWordChar p = true → ∀ (tail : List Char),
        subKwAux kw rep (some p) (ks ++ tail)
          = ks ++ subKwAux kw rep (some (ks.getLastD p)) tail := by
  intro ks
  induction ks with
  | nil => intro _ p hp tail; rfl
  | cons k ks' ih =>
    intro hks p hp tail
    rw [show (k :: ks') ++ tail = k :: (ks' ++ tail) from rfl,
      subKwAux_word_prev_cons hp,
      ih (fun x hx => hks x (List.mem_cons_of_mem k hx)) k (hks k (List.mem_cons_self _ _)) tail]
    rw [List.getLastD_cons]
    rfl

theorem isPrefixOf_subKwAux_word (kw rep : List Char) :
    ∀ (ks : List Char), (∀ k ∈ ks, isWordChar k = true) →
      ∀ (p : Char), isWordChar p = true → ∀ (r : List Char),
        ks.isPrefixOf (subKwAux kw rep (some p) r) = ks.isPrefixOf r := by
  intro ks
  induction ks with
  | nil => intro _ p hp r; simp [List.isPrefixOf]
  | cons k ks' ih =>
    intro hks p hp r
    cases r with
    | nil => rw [subKwAux_nil]
    | cons y rest =>
      rw [subKwAux_word_prev_cons hp]
      show ((k == y) && ks'.isPrefixOf (subKwAux kw rep (some y) rest))
          = ((k == y) && ks'.isPrefixOf rest)
      by_cases hky : k = y
      · subst hky
        rw [ih (fun x hx => hks x (List.mem_cons_of_mem k hx)) k (hks k (List.mem_cons_self _ _)) rest]
      · rw [show (k == y) = false from by simp [hky]]
        simp

theorem cnt_rep_skip (pc : Option Char) (z : List Char) :
    cntAux (sL "texture_unit") pc (sL "texture_unit Diffuse_Map" ++ z)
      = cntAux (sL "texture_unit") (some 'p') z := by
  simp [sL, cntAux, cntMatch, boundaryB, isSpace, isWordChar, List.isPrefixOf]

theorem tu_look_preserved :
    ∀ (n : Nat) (w : List Char), w.length ≤ n → ∀ (p : Option Char),
      (match w.dropWhile isSpace with
       | '\x7b' :: _ => true
       | _ => false) = false →
      (match (subKwAux (sL "texture_unit") (sL "texture_unit Diffuse_Map") p w).dropWhile isSpace with
       | '\x7b' :: _ => true
       | _ => false) = false := by
  intro n
  induction n with
  | zero =>
    intro w hw p h
    have h0 : w = [] := List.eq_nil_of_length_eq_zero (Nat.le_zero.mp hw)
    subst h0
    exact h
  | succ n ih =>
    intro w hw p h
    cases w with
    | nil => exact h
    | cons c rest =>
      by_cases hm : subMatch (sL "texture_unit") p (c :: rest) = true
      · rw [subKwAux_match _ hm]
        simp [sL, isSpace]
      · rw [subKwAux_skip _ (Bool.not_eq_true _ ▸ hm)]
        by_cases hc : isSpace c = true
        · rw [List.dropWhile_cons_of_pos hc] at h ⊢
          exact ih rest (by simp only [List.length_cons] at hw; omega) (some c) h
        · rw [List.dropWhile_cons_of_neg hc] at h ⊢
          by_cases hcc : c = '\x7b'
          · subst hcc
            exact absurd h (by simp)
          · split
            · rename_i heq
              injection heq with h1 h2
              exact absurd h1 hcc
            · rfl

theorem isSpace_not_word {d : Char} (h : isSpace d = true) : isWordChar d = false := by
  unfold isSpace at h
  simp only [Bool.or_eq_true, decide_eq_true_eq] at h
  rcases h with ((((h | h) | h) | h) | h) | h <;> subst h <;> decide

theorem tu_sub_no_openers :
    ∀ (n : Nat) (s : List Char), s.length ≤ n →
      ∀ (pc ps : Option Char), boundaryB pc = boundaryB ps →
        cntAux (sL "texture_unit") pc
          (subKwAux (sL "texture_unit") (sL "texture_unit Diffuse_Map") ps s) = 0 := by
  intro n
  induction n with
  | zero =>
    intro s hs pc ps hb
    have h0 : s = [] := List.eq_nil_of_length_eq_zero (Nat.le_zero.mp hs)
    subst h0
    rfl
  | succ n ih =>
    intro s hs pc ps hb
    cases s with
    | nil => rfl
    | cons c rest =>
      by_cases hm : subMatch (sL "texture_unit") ps (c :: rest) = true
      · rw [subKwAux_match _ hm, cnt_rep_skip]
        rw [show (sL "texture_unit").getLastD ' ' = 't' from by decide]
        refine ih _ ?_ (some 'p') (some 't') (by decide)
        have h12 : (sL "texture_unit").length = 12 := by decide
        simp only [List.length_drop, List.length_cons, h12] at *
        omega
      · rw [subKwAux_skip _ (Bool.not_eq_true _ ▸ hm)]
        rw [show cntAux (sL "texture_unit") pc
              (c :: subKwAux (sL "texture_unit") (sL "texture_unit Diffuse_Map") (some c) rest)
            = (if cntMatch (sL "texture_unit") pc
                  (c :: subKwAux (sL "texture_unit") (sL "texture_unit Diffuse_Map") (some c) rest)
                  = true then 1 else 0)
              + cntAux (sL "texture_unit") (some c)
                  (subKwAux (sL "texture_unit") (sL "texture_unit Diffuse_Map") (some c) rest)
            from rfl]
        rw [ih rest (by simp only [List.length_cons] at hs; omega) (some c) (some c) rfl]
        suffices hcm : cntMatch (sL "texture_unit") pc
            (c :: subKwAux (sL "texture_unit") (sL "texture_unit Diffuse_Map") (some c) rest)
            = false by
          rw [hcm]
          rfl
        by_contra hcon
        rw [Bool.not_eq_false] at hcon
        unfold cntMatch at hcon
        simp only [Bool.and_eq_true] at hcon
        obtain ⟨⟨hbc, hpre⟩, hlook⟩ := hcon
        have hc : c = 't' := by
          obtain ⟨t2, ht2⟩ := List.isPrefixOf_iff_prefix.mp hpre
          have hh := congrArg (fun l => l.head?) ht2
          simp [sL] at hh
          exact hh.symm
        subst hc
        have hpre' : (sL "exture_unit").isPrefixOf
            (subKwAux (sL "texture_unit") (sL "texture_unit Diffuse_Map") (some 't') rest)
            = true := by
          have hstep : (sL "texture_unit").isPrefixOf
              ('t' :: subKwAux (sL "texture_unit") (sL "texture_unit Diffuse_Map") (some 't') rest)
              = (('t' == 't') && (sL "exture_unit").isPrefixOf
                  (subKwAux (sL "texture_unit") (sL "texture_unit Diffuse_Map") (some 't') rest)) := rfl
          rw [hstep] at hpre
          simpa using hpre
        have hpre2 : (sL "exture_unit").isPrefixOf rest = true := by
          rw [← isPrefixOf_subKwAux_word (sL "texture_unit") (sL "texture_unit Diffuse_Map")
            (sL "exture_unit") (by decide) 't' (by decide) rest]
          exact hpre'
        obtain ⟨tail, htail2⟩ := List.isPrefixOf_iff_prefix.mp hpre2
        subst htail2
        have hcopy : subKwAux (sL "texture_unit") (sL "texture_unit Diffuse_Map") (some 't')
              (sL "exture_unit" ++ tail)
            = sL "exture_unit"
              ++ subKwAux (sL "texture_unit") (sL "texture_unit Diffuse_Map") (some 't') tail := by
          rw [subKwAux_copy_word_run (sL "texture_unit") (sL "texture_unit Diffuse_Map")
            (sL "exture_unit") (by decide) 't' (by decide) tail]
          rw [show (sL "exture_unit").getLastD 't' = 't' from by decide]
        rw [hcopy] at hlook
        have hlook2 : (match (subKwAux (sL "texture_unit") (sL "texture_unit Diffuse_Map")
              (some 't') tail).dropWhile isSpace with
            | '\x7b' :: _ => true
            | _ => false) = true := hlook
        have horig : (match tail.dropWhile isSpace with
            | '\x7b' :: _ => true
            | _ => false) = false := by
          by_contra horig'
          rw [Bool.not_eq_false] at horig'
          apply hm
          unfold subMatch
          simp only [Bool.and_eq_true]
          refine ⟨⟨⟨⟨by decide, ?_⟩, ?_⟩, ?_⟩, ?_⟩
          · rw [← hb]
            exact hbc
          · exact List.isPrefixOf_iff_prefix.mpr ⟨tail, rfl⟩
          · show (match tail.head? with
              | some d => !isWordChar d
              | none => true) = true
            rcases tail with _ | ⟨d, dtail⟩
            · rfl
            · by_cases hws : isSpace d = true
              · simp only [List.head?_cons]
                simp [isSpace_not_word hws]
              · rw [List.dropWhile_cons_of_neg hws] at horig'
                have hd : d = '\x7b' := by
                  rcases hdd : decide (d = '\x7b') with _ | _
                  · exfalso
                    have hne := of_decide_eq_false hdd
                    rcases hsplit2 : (d :: dtail) with _ | ⟨e, etail⟩
                    · simp at hsplit2
                    · injection hsplit2 with he1 he2
                      subst he1
                      subst he2
                      split at horig'
                      · rename_i heq
                        injection heq with f1 f2
                        exact absurd f1 hne
                      · exact Bool.noConfusion horig'
                  · exact of_decide_eq_true hdd
                subst hd
                exact (by decide : (!isWordChar '\x7b') = true)
          · exact horig'
        have hkeep := tu_look_preserved tail.length tail le_rfl (some 't') horig
        exact Bool.noConfusion (hkeep.symm.trans hlook2)

theorem takeWhile_append_all {p : Char → Bool} :
    ∀ {a : List Char}, (∀ x ∈ a, p x = true) → ∀ b,
      (a ++ b).takeWhile p = a ++ b.takeWhile p := by
  intro a
  induction a with
  | nil => intro _ b; rfl
  | cons c a' ih =>
    intro ha b
    rw [show (c :: a') ++ b = c :: (a' ++ b) from rfl,
      List.takeWhile_cons_of_pos (ha c (List.mem_cons_self _ _)),
      ih (fun x hx => ha x (List.mem_cons_of_mem c hx)) b]
    rfl

theorem dropWhile_append_all {p : Char → Bool} :
    ∀ {a : List Char}, (∀ x ∈ a, p x = true) → ∀ b,
      (a ++ b).dropWhile p = b.dropWhile p := by
  intro a
  induction a with
  | nil => intro _ b; rfl
  | cons c a' ih =>
    intro ha b
    rw [show (c :: a') ++ b = c :: (a' ++ b) from rfl,
      List.dropWhile_cons_of_pos (ha c (List.mem_cons_self _ _)),
      ih (fun x hx => ha x (List.mem_cons_of_mem c hx)) b]

theorem findFirstIdx_append_none {p : Char → Bool} :
    ∀ {a : List Char}, (∀ x ∈ a, p x = false) → ∀ b,
      findFirstIdx p (a ++ b) = (findFirstIdx p b).map (· + a.length) := by
  intro a
  induction a with
  | nil =>
    intro _ b
    simp
  | cons c a' ih =>
    intro ha b
    rw [show (c :: a') ++ b = c :: (a' ++ b) from rfl,
      show findFirstIdx p (c :: (a' ++ b))
        = if p c then some 0 else (findFirstIdx p (a' ++ b)).map (· + 1) from rfl,
      if_neg (by simp [ha c (List.mem_cons_self _ _)]),
      ih (fun x hx => ha x (List.mem_cons_of_mem c hx)) b]
    rcases findFirstIdx p b with _ | j
    · rfl
    · simp only [Option.map_some', List.length_cons]
      rw [Nat.add_assoc]

theorem transform_material_eq (t g1 : List Char) (h : nameG1 t = some g1) :
    transform_material t
      = some (sL "material " ++ pyStrip g1 ++ sL ": RoR/Managed_Mats/Base"
          ++ pySlice t (9 + (pyStrip g1).length) (pyFind '\x7b' t)
          ++ '\x7b' :: (subKw (sL "texture_unit") (sL "texture_unit Diffuse_Map")
                (subPass (subKw (sL "technique") (sL "technique BaseTechnique")
                  (pySlice t (pyFind '\x7b' t + 1) (pyRfind '\x7d' t)))) ++ ['\x7d'])) := by
  unfold transform_material
  rw [h]

theorem pyIdx_coe (n k : Nat) (h : k ≤ n) : pyIdx n (k : Int) = k := by
  unfold pyIdx
  rw [if_neg (by omega)]
  rw [Int.toNat_natCast]
  exact Nat.min_eq_left h

theorem pyStrip_sandwich (c0 : Char) (nrest w1 : List Char)
    (hc0 : isSpace c0 = false)
    (hlast : ∀ c, (c0 :: nrest).getLast? = some c → isSpace c = false)
    (hw1 : ∀ x ∈ w1, isSpace x = true) :
    pyStrip ((c0 :: nrest) ++ w1) = c0 :: nrest := by
  unfold pyStrip
  rw [show (c0 :: nrest) ++ w1 = c0 :: (nrest ++ w1) from rfl,
    List.dropWhile_cons_of_neg (by rw [hc0]; exact Bool.false_ne_true),
    show c0 :: (nrest ++ w1) = (c0 :: nrest) ++ w1 from rfl,
    List.reverse_append,
    dropWhile_append_all (fun x hx => hw1 x (List.mem_reverse.mp hx)) (c0 :: nrest).reverse]
  rcases hrev : (c0 :: nrest).reverse with _ | ⟨gl, grest⟩
  · exact absurd hrev (by simp)
  · have hgl : isSpace gl = false := by
      refine hlast gl ?_
      rw [List.getLast?_eq_head?_reverse, hrev]
      rfl
    rw [List.dropWhile_cons_of_neg (by rw [hgl]; exact Bool.false_ne_true), ← hrev,
      List.reverse_reverse]

theorem structured_nameG1 (c0 : Char) (nrest pre Y : List Char)
    (hc0n : c0 ≠ '\n') (hc0b : c0 ≠ '\x7b') (hc0s : isSpace c0 = false)
    (hnc : ∀ x ∈ c0 :: nrest, x ≠ '\x7b' ∧ x ≠ '\n')
    (hpre : ∀ x ∈ pre, isSpace x = true) :
    ∃ w1, nameG1 (sL "material " ++ ((c0 :: nrest) ++ (pre ++ ('\x7b' :: Y))))
        = some ((c0 :: nrest) ++ w1)
      ∧ ∀ x ∈ w1, isSpace x = true := by
  have hq : ∀ x ∈ c0 :: nrest, (fun x => !(x = '\n' || x = '\x7b')) x = true := by
    intro x hx
    obtain ⟨h1, h2⟩ := hnc x hx
    simp [h1, h2]
  have hw1eq : (pre ++ ('\x7b' :: Y)).takeWhile (fun x => !(x = '\n' || x = '\x7b')) = pre
      ∨ (pre ++ ('\x7b' :: Y)).takeWhile (fun x => !(x = '\n' || x = '\x7b'))
          = pre.takeWhile (fun x => !(x = '\n' || x = '\x7b')) := by
    rw [List.takeWhile_append]
    split
    · left
      rw [List.takeWhile_cons_of_neg (by decide), List.append_nil]
    · right
      rfl
  have hw1sp : ∀ x ∈ (pre ++ ('\x7b' :: Y)).takeWhile (fun x => !(x = '\n' || x = '\x7b')),
      isSpace x = true := by
    rcases hw1eq with he | he <;> rw [he]
    · exact hpre
    · intro x hx
      exact hpre x ((List.takeWhile_prefix _).sublist.subset hx)
  refine ⟨_, ?_, hw1sp⟩
  unfold nameG1
  rw [if_pos (show (sL "material").isPrefixOf
        (sL "material " ++ ((c0 :: nrest) ++ (pre ++ ('\x7b' :: Y)))) = true from
      List.isPrefixOf_iff_prefix.mpr
        ⟨' ' :: ((c0 :: nrest) ++ (pre ++ ('\x7b' :: Y))), rfl⟩)]
  show tryG1 ((sL "material " ++ ((c0 :: nrest) ++ (pre ++ ('\x7b' :: Y)))).drop 8)
      (((sL "material " ++ ((c0 :: nrest) ++ (pre ++ ('\x7b' :: Y)))).drop 8).takeWhile
        isSpace).length = _
  rw [show (sL "material " ++ ((c0 :: nrest) ++ (pre ++ ('\x7b' :: Y)))).drop 8
      = ' ' :: ((c0 :: nrest) ++ (pre ++ ('\x7b' :: Y))) from rfl]
  rw [show (' ' :: ((c0 :: nrest) ++ (pre ++ ('\x7b' :: Y)))).takeWhile isSpace
      = [' '] from by
    rw [List.takeWhile_cons_of_pos (by decide),
      show (c0 :: nrest) ++ (pre ++ ('\x7b' :: Y)) = c0 :: (nrest ++ (pre ++ ('\x7b' :: Y)))
        from rfl,
      List.takeWhile_cons_of_neg (by rw [hc0s]; exact Bool.false_ne_true)]]
  show tryG1 (' ' :: ((c0 :: nrest) ++ (pre ++ ('\x7b' :: Y)))) 1 = _
  rw [show tryG1 (' ' :: ((c0 :: nrest) ++ (pre ++ ('\x7b' :: Y)))) 1
      = (if (c0 ≠ '\n' && c0 ≠ '\x7b') = true then
          some (((c0 :: nrest) ++ (pre ++ ('\x7b' :: Y))).takeWhile
            (fun x => !(x = '\n' || x = '\x7b')))
        else tryG1 (' ' :: ((c0 :: nrest) ++ (pre ++ ('\x7b' :: Y)))) 0) from rfl]
  rw [if_pos (by simp [hc0n, hc0b])]
  rw [takeWhile_append_all hq (pre ++ ('\x7b' :: Y))]

theorem structured_pyFind (nm pre Y : List Char)
    (hnb : ∀ x ∈ nm, ¬x = '\x7b')
    (hpre : ∀ x ∈ pre, isSpace x = true) :
    pyFind '\x7b' (sL "material " ++ (nm ++ (pre ++ ('\x7b' :: Y))))
      = ((9 + nm.length + pre.length : Nat) : Int) := by
  unfold pyFind
  rw [findFirstIdx_append_none (by decide) (nm ++ (pre ++ ('\x7b' :: Y))),
    findFirstIdx_append_none (fun x hx => by simp [hnb x hx]) (pre ++ ('\x7b' :: Y)),
    findFirstIdx_append_none (fun x hx => by
      have hs := hpre x hx
      by_contra hcon
      simp only [Bool.not_eq_false, decide_eq_true_eq] at hcon
      subst hcon
      exact absurd hs (by decide)) ('\x7b' :: Y),
    show findFirstIdx (fun c => (c = '\x7b' : Bool)) ('\x7b' :: Y) = some 0 from rfl]
  simp only [Option.map_some']
  show (((((0 + pre.length) + nm.length) + (sL "material ").length : Nat)) : Int) = _
  rw [show (sL "material ").length = 9 from by decide]
  exact congrArg _ (by omega)

theorem structured_pyRfind (W : List Char) :
    pyRfind '\x7d' (W ++ ['\x7d']) = ((W.length : Nat) : Int) := by
  unfold pyRfind
  rw [List.reverse_append,
    show (['\x7d'].reverse : List Char) ++ W.reverse = '\x7d' :: W.reverse from rfl,
    show findFirstIdx (fun c => (c = '\x7d' : Bool)) ('\x7d' :: W.reverse) = some 0 from rfl]
  show ((((W ++ ['\x7d']).length - 1 - 0 : Nat)) : Int) = _
  simp only [List.length_append, List.length_cons, List.length_nil]
  exact congrArg _ (by omega)

theorem structured_slice_pre (nm pre Y : List Char) :
    pySlice (sL "material " ++ (nm ++ (pre ++ ('\x7b' :: Y))))
      (9 + (nm.length : Int)) ((9 + nm.length + pre.length : Nat) : Int) = pre := by
  have hm9 : (sL "material ").length = 9 := by decide
  have hlen : (sL "material " ++ (nm ++ (pre ++ ('\x7b' :: Y)))).length
      = 9 + nm.length + pre.length + 1 + Y.length := by
    simp only [List.length_append, List.length_cons, List.length_nil, hm9]
    omega
  unfold pySlice
  rw [show (9 + (nm.length : Int)) = ((9 + nm.length : Nat) : Int) from by push_cast; ring,
    pyIdx_coe _ _ (by rw [hlen]; omega),
    pyIdx_coe _ _ (by rw [hlen]; omega),
    show sL "material " ++ (nm ++ (pre ++ ('\x7b' :: Y)))
      = ((sL "material " ++ nm) ++ pre) ++ ('\x7b' :: Y) from by simp [List.append_assoc],
    List.take_left' (show ((sL "material " ++ nm) ++ pre).length = 9 + nm.length + pre.length
      from by simp only [List.length_append, hm9]),
    List.drop_left' (show (sL "material " ++ nm).length = 9 + nm.length
      from by simp only [List.length_append, hm9])]

theorem structured_slice_inner (nm pre inner : List Char) :
    pySlice (sL "material " ++ (nm ++ (pre ++ ('\x7b' :: (inner ++ ['\x7d'])))))
      (((9 + nm.length + pre.length : Nat) : Int) + 1)
      (((sL "material " ++ (nm ++ (pre ++ ('\x7b' :: inner)))).length : Nat) : Int)
      = inner := by
  have hm9 : (sL "material ").length = 9 := by decide
  have hlen : (sL "material " ++ (nm ++ (pre ++ ('\x7b' :: (inner ++ ['\x7d']))))).length
      = 9 + nm.length + pre.length + 1 + inner.length + 1 := by
    simp only [List.length_append, List.length_cons, List.length_nil, hm9]
    omega
  have hWlen : (sL "material " ++ (nm ++ (pre ++ ('\x7b' :: inner)))).length
      = 9 + nm.length + pre.length + 1 + inner.length := by
    simp only [List.length_append, List.length_cons, List.length_nil, hm9]
    omega
  unfold pySlice
  rw [show ((((9 + nm.length + pre.length : Nat)) : Int) + 1)
      = ((9 + nm.length + pre.length + 1 : Nat) : Int) from by push_cast; ring,
    pyIdx_coe _ _ (by rw [hlen]; omega),
    pyIdx_coe _ _ (by rw [hlen, hWlen]; omega),
    show sL "material " ++ (nm ++ (pre ++ ('\x7b' :: (inner ++ ['\x7d']))))
      = (sL "material " ++ (nm ++ (pre ++ ('\x7b' :: inner)))) ++ ['\x7d'] from by
        simp [List.append_assoc],
    List.take_left' rfl,
    show sL "material " ++ (nm ++ (pre ++ ('\x7b' :: inner)))
      = (((sL "material " ++ nm) ++ pre) ++ ['\x7b']) ++ inner from by
        simp [List.append_assoc],
    List.drop_left' (show (((sL "material " ++ nm) ++ pre) ++ ['\x7b']).length
      = 9 + nm.length + pre.length + 1 from by
        simp only [List.length_append, List.length_cons, List.length_nil, hm9])]

/-- **C8 (amended).**  The claim's general re-run-safety statement fails
(`C8_counterexample`), but it holds for structurally well-formed blocks: if
the block is `material <name><ws>\x7b<inner>\x7d` with a nonempty name that
contains no `\x7b` or newline, neither starts nor ends in whitespace, whose
`material <name>` prefix does not contain `texture_unit`, and whose
name-to-brace gap is whitespace, then `transform_material` succeeds and its
output block is rejected by `is_eligible_material`: the final `texture_unit`
rename destroys every `\btexture_unit\s*\x7b` opener, so the
`texture_unit_count == 1` test fails on a second run. -/
theorem C8_transformed_block_rejected (c0 : Char) (nrest pre inner : List Char)
    (hc0s : isSpace c0 = false)
    (hnc : ∀ x ∈ c0 :: nrest, x ≠ '\x7b' ∧ x ≠ '\n')
    (hlast : ∀ c, (c0 :: nrest).getLast? = some c → isSpace c = false)
    (hpre : ∀ x ∈ pre, isSpace x = true)
    (htu : hasSub (sL "texture_unit") (sL "material " ++ (c0 :: nrest)) = false) :
    ∃ out, transform_material
        (sL "material " ++ ((c0 :: nrest) ++ (pre ++ ('\x7b' :: (inner ++ ['\x7d'])))))
        = some out
      ∧ is_eligible_material out = false := by
  obtain ⟨w1, hg1, hw1⟩ := structured_nameG1 c0 nrest pre (inner ++ ['\x7d'])
    (hnc c0 (List.mem_cons_self c0 nrest)).2 (hnc c0 (List.mem_cons_self c0 nrest)).1
    hc0s hnc hpre
  have hstrip : pyStrip ((c0 :: nrest) ++ w1) = c0 :: nrest :=
    pyStrip_sandwich c0 nrest w1 hc0s hlast hw1
  have hfind := structured_pyFind (c0 :: nrest) pre (inner ++ ['\x7d'])
    (fun x hx => (hnc x hx).1) hpre
  have hrfW := structured_pyRfind (sL "material " ++ ((c0 :: nrest) ++ (pre ++ ('\x7b' :: inner))))
  have htW : sL "material " ++ ((c0 :: nrest) ++ (pre ++ ('\x7b' :: (inner ++ ['\x7d']))))
      = (sL "material " ++ ((c0 :: nrest) ++ (pre ++ ('\x7b' :: inner)))) ++ ['\x7d'] := by
    simp [List.append_assoc]
  rw [← htW] at hrfW
  refine ⟨_, transform_material_eq _ _ hg1, ?_⟩
  rw [hstrip, hfind, hrfW, structured_slice_pre (c0 :: nrest) pre (inner ++ ['\x7d']),
    structured_slice_inner (c0 :: nrest) pre inner]
  have s2 : hasSub (sL "texture_unit")
      ((sL "material " ++ (c0 :: nrest)) ++ sL ": RoR/Managed_Mats/Base") = false := by
    have h := @hasSub_append_no_cross (sL "texture_unit") (sL "material " ++ (c0 :: nrest))
      ':' (sL " RoR/Managed_Mats/Base") (by decide) (by decide) htu (by decide)
    exact h
  have hspace_tu : ∀ y ∈ sL "texture_unit", isSpace y = false := by decide
  have s3 : hasSub (sL "texture_unit")
      (((sL "material " ++ (c0 :: nrest)) ++ sL ": RoR/Managed_Mats/Base") ++ pre)
      = false := by
    rcases pre with _ | ⟨p0, pr⟩
    · rw [List.append_nil]
      exact s2
    · refine @hasSub_append_no_cross (sL "texture_unit")
        ((sL "material " ++ (c0 :: nrest)) ++ sL ": RoR/Managed_Mats/Base") p0 pr
        (by decide) ?_ s2 ?_
      · intro hmem
        have h1 : isSpace p0 = true := hpre p0 (List.mem_cons_self _ _)
        rw [hspace_tu p0 hmem] at h1
        exact Bool.noConfusion h1
      · refine hasSub_of_all_not_mem (by decide) ?_
        intro x hx hmem
        have h1 : isSpace x = true := hpre x hx
        rw [hspace_tu x hmem] at h1
        exact Bool.noConfusion h1
  have s4 : hasSub (sL "texture_unit")
      ((((sL "material " ++ (c0 :: nrest)) ++ sL ": RoR/Managed_Mats/Base") ++ pre)
        ++ ['\x7b']) = false :=
    @hasSub_append_no_cross (sL "texture_unit")
      (((sL "material " ++ (c0 :: nrest)) ++ sL ": RoR/Managed_Mats/Base") ++ pre)
      '\x7b' [] (by decide) (by decide) s3 (by decide)
  have hcnt : kwBraceCount (sL "texture_unit")
      (sL "material " ++ (c0 :: nrest) ++ sL ": RoR/Managed_Mats/Base" ++ pre
        ++ '\x7b' :: (subKw (sL "texture_unit") (sL "texture_unit Diffuse_Map")
              (subPass (subKw (sL "technique") (sL "technique BaseTechnique") inner))
            ++ ['\x7d'])) = 0 := by
    show cntAux (sL "texture_unit") none _ = 0
    rw [cnt_after_lbrace _ s4 none _, cnt_append_rbrace _ (some '\x7b'),
      show subKw (sL "texture_unit") (sL "texture_unit Diffuse_Map")
          (subPass (subKw (sL "technique") (sL "technique BaseTechnique") inner))
        = subKwAux (sL "texture_unit") (sL "texture_unit Diffuse_Map") none
          (subPass (subKw (sL "technique") (sL "technique BaseTechnique") inner)) from rfl]
    exact tu_sub_no_openers _ _ le_rfl (some '\x7b') none (by decide)
  unfold is_eligible_material
  split
  · rfl
  · show ((kwBraceCount (sL "pass") _ == 1 || kwBraceCount (sL "pass") _ == 2)
        && kwBraceCount (sL "texture_unit") _ == 1) = false
    rw [hcnt]
    simp

set_option maxRecDepth 200000 in
theorem C8_transformed_block_rejected_witness :
    ∃ out, transform_material
        (sL "material " ++ (('A' :: []) ++ ((['\n']) ++ ('\x7b' ::
          ((sL " pass \x7b texture_unit \x7b \x7d \x7d ") ++ ['\x7d'])))))
        = some out
      ∧ is_eligible_material out = false :=
  C8_transformed_block_rejected 'A' [] ['\n'] (sL " pass \x7b texture_unit \x7b \x7d \x7d ")
    (by decide) (by decide)
    (by
      intro c hc
      simp at hc
      subst hc
      decide)
    (by decide) (by decide)
